import Mathlib

set_option maxHeartbeats 1600000

/-! Shallow embedding of the request-dispatch layer of the npc repository
(internal/llm and internal/api): the weighted round-robin balancer, the
token-bucket rate limiter, the router, the retry and fallback helpers, the
decision cache and the batch decision system, together with proofs about
the behaviour specified for them.

Modelling conventions:
* Go machine integers are modelled as unbounded Int (all quantities involved
  stay far below 2^63 in the claims considered).
* Go float64 quantities of the rate limiter are modelled as exact rationals.
* Go time.Time and time.Duration are modelled as Int nanoseconds.
* Go maps are modelled as association lists with pairwise distinct keys;
  map iteration order is modelled as list order (map iteration order in Go
  is arbitrary, and no claim depends on a particular order beyond this).
* The mutexes only serialize calls and are not modelled; each operation is a
  function from state (plus the current time where the code reads the clock)
  to state. -/

namespace Npc

/-- The Euclidean loop of the gcd function in internal/llm, over Go ints
(the Go % operator is truncated remainder, Int.tmod). The fuel argument
only bounds the number of iterations so that the definition is structural;
|b| strictly decreases every iteration, so natAbs b + 1 iterations always
complete the loop (goGcd below) and the bound is never hit. -/
def goGcdAux : Nat → Int → Int → Int
  | 0, a, _ => a
  | fuel + 1, a, b => if b = 0 then a else goGcdAux fuel b (Int.tmod a b)

/-- gcd from internal/llm: for b != 0, a and b become b and a % b until b
is 0, then a is returned. -/
def goGcd (a b : Int) : Int :=
  goGcdAux (b.natAbs + 1) a b

/-- A provider together with its weight (type weightedProvider in
internal/llm). -/
structure WeightedProvider (α : Type) where
  provider : α
  weight : Int
deriving DecidableEq

/-- The balancer state (struct Balancer in internal/llm). The provider list
is immutable after construction; lastIndex and currentWeight rotate. -/
structure Balancer (α : Type) where
  providers : List (WeightedProvider α)
  currentWeight : Int
  maxWeight : Int
  gcd : Int
  lastIndex : Int
deriving DecidableEq

/-- NewBalancer from internal/llm. The weights function plays the role of
the Go weights map keyed by provider name (a missing key yields 0 in Go and
is then normalized to 1, exactly like any weight ≤ 0). -/
def NewBalancer {α : Type} (ps : List α) (weights : α → Int) : Balancer α :=
  let wps : List (WeightedProvider α) :=
    ps.map (fun p =>
      { provider := p
        weight := if weights p ≤ 0 then 1 else weights p })
  match wps with
  | [] =>
      { providers := [], currentWeight := 0, maxWeight := 0, gcd := 0, lastIndex := -1 }
  | w0 :: rest =>
      let mg := rest.foldl
        (fun acc wp =>
          (if wp.weight > acc.1 then wp.weight else acc.1, goGcd acc.2 wp.weight))
        (w0.weight, w0.weight)
      { providers := w0 :: rest, currentWeight := 0, maxWeight := mg.1, gcd := mg.2
        lastIndex := -1 }

/-- The scan loop inside Balancer.Next. The Go loop has no exit other than
selecting an entry; the fuel argument bounds the number of iterations, and
the termination theorem below shows that 2·n iterations always suffice from
any reachable state. Returns the selected entry with the updated lastIndex
and currentWeight. -/
def nextLoop {α : Type} (b : Balancer α) :
    Nat → Int → Int → Option (WeightedProvider α × Int × Int)
  | 0, _, _ => none
  | fuel + 1, lastIndex, currentWeight =>
      let li := Int.tmod (lastIndex + 1) (b.providers.length : Int)
      let cw :=
        if li = 0 then
          (if currentWeight - b.gcd ≤ 0 then b.maxWeight else currentWeight - b.gcd)
        else currentWeight
      match b.providers[li.toNat]? with
      | none => none
      | some wp =>
          if wp.weight ≥ cw then some (wp, li, cw) else nextLoop b fuel li cw

/-- Balancer.Next from internal/llm: zero providers yield nil, a single
provider is returned without running the algorithm, otherwise the scan loop
runs and its selection updates the balancer state. -/
def Balancer.next {α : Type} (b : Balancer α) (fuel : Nat) : Option α × Balancer α :=
  if b.providers.length = 0 then (none, b)
  else if b.providers.length = 1 then
    ((b.providers[0]?).map (fun wp => wp.provider), b)
  else
    match nextLoop b fuel b.lastIndex b.currentWeight with
    | none => (none, b)
    | some (wp, li, cw) =>
        (some wp.provider, { b with lastIndex := li, currentWeight := cw })

/-- A sequence of n Next() calls (each with the sufficient fuel 2·n),
returning the list of selections in order plus the final state. -/
def Balancer.run {α : Type} (b : Balancer α) : Nat → List (Option α) × Balancer α
  | 0 => ([], b)
  | n + 1 =>
      let r := b.next (2 * b.providers.length)
      let rest := r.2.run n
      (r.1 :: rest.1, rest.2)

/-- One whole Next() call viewed as a state transition. -/
def stepB {α : Type} (b : Balancer α) : Balancer α :=
  (b.next (2 * b.providers.length)).2

/-- The balancer of TestBalancer_WeightedRoundRobin: three providers
(0 = heavy, 1 = medium, 2 = light) with weights 3, 2 and 1. -/
def testBalancer : Balancer Nat :=
  NewBalancer [0, 1, 2] (fun p => if p = 0 then 3 else if p = 1 then 2 else 1)

/-- All states the test balancer ever visits: the initial state followed by
the six states of its rotation cycle. -/
def testCycle : List (Balancer Nat) :=
  let ws : List (WeightedProvider Nat) := [⟨0, 3⟩, ⟨1, 2⟩, ⟨2, 1⟩]
  [ { providers := ws, currentWeight := 0, maxWeight := 3, gcd := 1, lastIndex := -1 }
  , { providers := ws, currentWeight := 3, maxWeight := 3, gcd := 1, lastIndex := 0 }
  , { providers := ws, currentWeight := 2, maxWeight := 3, gcd := 1, lastIndex := 0 }
  , { providers := ws, currentWeight := 2, maxWeight := 3, gcd := 1, lastIndex := 1 }
  , { providers := ws, currentWeight := 1, maxWeight := 3, gcd := 1, lastIndex := 0 }
  , { providers := ws, currentWeight := 1, maxWeight := 3, gcd := 1, lastIndex := 1 }
  , { providers := ws, currentWeight := 1, maxWeight := 3, gcd := 1, lastIndex := 2 } ]

/-- Whether the list contains three consecutive occurrences of v. -/
def hasTripleRun {α : Type} [DecidableEq α] (v : α) : List α → Bool
  | x :: y :: z :: rest =>
      (x = v ∧ y = v ∧ z = v : Bool) || hasTripleRun v (y :: z :: rest)
  | _ => false

/-- Distance (in scan iterations) from the next index to be scanned, j, to
the index m of a maximal-weight entry, moving forward cyclically in a list
of length n. -/
def distN (j m n : Nat) : Nat := if j ≤ m then m - j else n - j + m

/-- The state invariant of the scan loop: the index visited last lies in
[-1, n) and the current weight never exceeds the maximal weight. -/
def balancerInv {α : Type} (b : Balancer α) (lastIndex currentWeight : Int) : Prop :=
  -1 ≤ lastIndex ∧ lastIndex < (b.providers.length : Int) ∧ currentWeight ≤ b.maxWeight

/-! ### Token-bucket rate limiter (RateLimiter in internal/llm)

The Go struct stores float64 seconds; they are modelled as exact rationals.
Wait is a function of the state and the current wall-clock time; it returns
the new state together with the duration slept (0 when tokens sufficed).
Wait never returns an error: it only delays. -/

/-- RateLimiter state from internal/llm. -/
structure RateLimiter where
  tokens : ℚ
  maxTokens : ℚ
  refillRate : ℚ
  lastRefill : ℚ
deriving DecidableEq

/-- NewRateLimiter: a full bucket whose last refill is the construction
time. -/
def NewRateLimiter (maxTokens refillRate now : ℚ) : RateLimiter :=
  { tokens := maxTokens, maxTokens := maxTokens, refillRate := refillRate
    lastRefill := now }

/-- RateLimiter.Wait from internal/llm: refill by elapsed·rate capped at
capacity, then either sleep the exact deficit and zero the bucket, or debit
immediately. Returns (new state, seconds slept). -/
def RateLimiter.wait (r : RateLimiter) (now cost : ℚ) : RateLimiter × ℚ :=
  let elapsed := now - r.lastRefill
  let tokens := min r.maxTokens (r.tokens + elapsed * r.refillRate)
  if tokens < cost then
    ({ r with tokens := 0, lastRefill := now }, (cost - tokens) / r.refillRate)
  else
    ({ r with tokens := tokens - cost, lastRefill := now }, 0)

/-! ### OpenAI-compatible adapter (OpenAIAdapter.Complete in internal/llm)

Errors are modelled as their message strings (a Go error value). The HTTP
layer is modelled by a NetOutcome describing what the wire would have
produced; the JSON marshalling/unmarshalling of well-formed payloads is
modelled as already decoded. A cancelled context makes http.Client.Do fail
before any network exchange completes, which Complete wraps as a network
error. The Bool returned alongside records whether a network call
completed (a response was received). -/

/-- A Go error, modelled by its message. -/
abbrev GoErr := String

/-- CompletionResult from internal/llm (latency modelled as 0). -/
structure CompletionResult where
  content : String
  provider : String
  model : String
  tokensIn : Int
  tokensOut : Int
deriving DecidableEq

/-- What the network would deliver for one HTTP exchange: a transport
failure, or a decoded openAIResponse with its HTTP status. -/
inductive NetOutcome where
  | transportError (msg : String)
  | response (status : Int) (choices : List String)
      (promptTokens completionTokens : Int) (errorMessage : String)
deriving DecidableEq

/-- OpenAIAdapter.Complete from internal/llm, for adapter identity name and
model. Checks in source order: cancelled context (http.Client.Do fails),
transport error, non-200 status, API error message, empty choices. -/
def adapterComplete (name model : String) (cancelled : Bool) (net : NetOutcome) :
    Except GoErr CompletionResult × Bool :=
  if cancelled then (Except.error "network error: context canceled", false)
  else
    match net with
    | NetOutcome.transportError m => (Except.error ("network error: " ++ m), false)
    | NetOutcome.response status choices pt ct errMsg =>
        if status ≠ 200 then (Except.error ("HTTP error " ++ toString status), true)
        else if errMsg ≠ "" then (Except.error ("API error: " ++ errMsg), true)
        else
          match choices with
          | [] => (Except.error "no response choices returned", true)
          | c :: _ =>
              (Except.ok
                { content := c, provider := name, model := model
                  tokensIn := pt, tokensOut := ct }, true)

/-! ### Router (internal/llm)

Router.Complete waits on the rate limiter, asks the balancer for one
provider, invokes that provider's Complete exactly once and returns its
result, recording per-provider statistics. The behaviour of each provider's
Complete is a parameter (it wraps an outbound HTTP call); it returns the
completion outcome together with the network-call-completed flag of the
adapter model. The trace records what the call did. -/

/-- Bump a counter keyed by name in an association list (a Go map of
counters; a missing key counts as 0). -/
def mapIncr (l : List (String × Nat)) (k : String) : List (String × Nat) :=
  if (l.find? (fun kv => kv.1 == k)).isSome then
    l.map (fun kv => if kv.1 == k then (kv.1, kv.2 + 1) else kv)
  else l ++ [(k, 1)]

/-- Store a value under a key in an association list (a Go map store). -/
def mapStore {β : Type} (l : List (String × β)) (k : String) (v : β) :
    List (String × β) :=
  if (l.find? (fun kv => kv.1 == k)).isSome then
    l.map (fun kv => if kv.1 == k then (kv.1, v) else kv)
  else l ++ [(k, v)]

/-- Router state from internal/llm (the per-NPC mapping is not exercised by
the claims and is omitted). Providers are identified by name. -/
structure Router where
  balancer : Balancer String
  rateLimiter : RateLimiter
  successCount : List (String × Nat)
  errorCount : List (String × Nat)
  lastError : List (String × String)

/-- Observable actions of one Router.Complete call. -/
structure RouterCallTrace where
  admissionSlept : ℚ
  invoked : List String
  networkCompleted : Bool
deriving DecidableEq

/-- Router.Complete from internal/llm: rateLimiter.Wait(1), balancer.Next(),
then a single invocation of the selected provider's Complete; its error is
returned as-is (no retry, no second provider). behave gives each provider's
Complete outcome and network-completion flag. -/
def Router.complete (r : Router) (now : ℚ)
    (behave : String → Except GoErr CompletionResult × Bool) :
    Except GoErr CompletionResult × Router × RouterCallTrace :=
  let w := r.rateLimiter.wait now 1
  let r1 : Router := { r with rateLimiter := w.1 }
  let nx := r1.balancer.next (2 * r1.balancer.providers.length)
  let r2 : Router := { r1 with balancer := nx.2 }
  match nx.1 with
  | none =>
      (Except.error "no providers available", r2,
        { admissionSlept := w.2, invoked := [], networkCompleted := false })
  | some p =>
      match behave p with
      | (Except.error e, completed) =>
          (Except.error e,
            { r2 with errorCount := mapIncr r2.errorCount p
                      lastError := mapStore r2.lastError p e },
            { admissionSlept := w.2, invoked := [p], networkCompleted := completed })
      | (Except.ok res, completed) =>
          (Except.ok res, { r2 with successCount := mapIncr r2.successCount p },
            { admissionSlept := w.2, invoked := [p], networkCompleted := completed })

/-! ### Retry and fallback (internal/api)

Manager.callProviderWithRetry retries one provider with exponential
backoff; BatchDecisionSystem.callLLMWithFallback tries the primary provider
then each remaining provider once. Outcomes of the underlying calls are
parameters (they wrap outbound HTTP calls). -/

/-- Lower-case characters of a Go string (strings.ToLower on ASCII). -/
def lowerChars (s : String) : List Char := s.data.map Char.toLower

/-- strings.Contains on character lists. -/
def containsSeq : List Char → List Char → Bool
  | hay, needle =>
      if needle.isPrefixOf hay then true
      else
        match hay with
        | [] => false
        | _ :: t => containsSeq t needle

/-- isRetryableError from internal/api/manager.go: the lower-cased message
mentions 429, rate, timeout, temporary, 503 or 502. -/
def isRetryableError (err : GoErr) : Bool :=
  let l := lowerChars err
  containsSeq l ("429".data) || containsSeq l ("rate".data) ||
  containsSeq l ("timeout".data) || containsSeq l ("temporary".data) ||
  containsSeq l ("503".data) || containsSeq l ("502".data)

/-- The loop body of Manager.callProviderWithRetry: remaining is how many
attempts are still allowed, i the current attempt number, lastErr the error
of the previous attempt. call i is the outcome of the i-th attempt against
the one given provider. Returns the result together with the backoff sleeps
performed, in seconds and in order (2^(i-1) before retry i). -/
def retryLoop (call : Nat → Except GoErr String) :
    Nat → Nat → GoErr → Except GoErr String × List Nat
  | 0, _, lastErr => (Except.error lastErr, [])
  | remaining + 1, i, _ =>
      let sleeps := if i > 0 then [2 ^ (i - 1)] else []
      match call i with
      | Except.ok response => (Except.ok response, sleeps)
      | Except.error e =>
          if isRetryableError e then
            let rest := retryLoop call remaining (i + 1) e
            (rest.1, sleeps ++ rest.2)
          else (Except.error e, sleeps)

/-- Manager.callProviderWithRetry from internal/api/manager.go: up to
maxRetries retries after the first attempt, always against the same
provider, with 2^(i-1) seconds of backoff before retry i; a non-retryable
error stops immediately; exhaustion returns the last error. -/
def callProviderWithRetry (call : Nat → Except GoErr String) (maxRetries : Nat) :
    Except GoErr String × List Nat :=
  retryLoop call (maxRetries + 1) 0 ""

/-- api.Provider, reduced to its identity. -/
structure MProvider where
  name : String
deriving DecidableEq

/-- The fallback loop of BatchDecisionSystem.callLLMWithFallback: walk the
provider list in order, skip the provider whose name matches the active
primary, honour context cancellation before each attempt, try each
remaining provider once (outcome i is what attempting provider i returns)
and stop at the first success. Also returns the indices attempted. -/
def fallbackLoop (activeName : String) (outcome : Nat → Except GoErr String)
    (cancelled : Bool) : List MProvider → Nat → Except GoErr String × List Nat
  | [], _ => (Except.error "all providers failed", [])
  | p :: rest, i =>
      if p.name = activeName then fallbackLoop activeName outcome cancelled rest (i + 1)
      else if cancelled then (Except.error "context canceled", [])
      else
        match outcome i with
        | Except.ok response => (Except.ok response, [i])
        | Except.error _ =>
            let t := fallbackLoop activeName outcome cancelled rest (i + 1)
            (t.1, i :: t.2)

/-- BatchDecisionSystem.callLLMWithFallback from internal/api/batch.go, in
the case where an active primary provider exists (activeSLM non-nil):
attempt the primary first (primary is its outcome), then fall back over
slmProviders in order. Returns the result and the indices of the fallback
providers attempted. -/
def callLLMWithFallback (activeName : String) (primary : Except GoErr String)
    (ps : List MProvider) (outcome : Nat → Except GoErr String) (cancelled : Bool) :
    Except GoErr String × List Nat :=
  match primary with
  | Except.ok response => (Except.ok response, [])
  | Except.error _ => fallbackLoop activeName outcome cancelled ps 0

/-! ### Decision cache (DecisionCache in internal/api/batch.go)

Times are Int nanoseconds (Go time.Time / time.Duration). The Go map is an
association list with pairwise distinct keys; iteration order of
evictOldest is list order (Go map iteration order is arbitrary, and the
specified tie-break is likewise arbitrary). -/

/-- An opaque decision payload: a decoded JSON object, modelled as a list
of key/value pairs of strings. -/
abbrev Decision := List (String × String)

/-- CachedDecision from internal/api/batch.go. -/
structure CachedDecision where
  decision : Decision
  createdAt : Int
  hitCount : Nat
deriving DecidableEq

/-- DecisionCache from internal/api/batch.go. -/
structure DecisionCache where
  entries : List (String × CachedDecision)
  maxSize : Nat
  ttl : Int
deriving DecidableEq

/-- NewDecisionCache. -/
def NewDecisionCache (maxSize : Nat) (ttl : Int) : DecisionCache :=
  { entries := [], maxSize := maxSize, ttl := ttl }

/-- DecisionCache.Get: a present entry older than ttl is reported absent
but not removed; a hit bumps the entry's hit counter in place. -/
def DecisionCache.get (c : DecisionCache) (now : Int) (key : String) :
    Option CachedDecision × DecisionCache :=
  match c.entries.find? (fun kv => kv.1 == key) with
  | none => (none, c)
  | some kv =>
      if now - kv.2.createdAt > c.ttl then (none, c)
      else
        let bumped := { kv.2 with hitCount := kv.2.hitCount + 1 }
        (some bumped,
          { c with entries :=
              c.entries.map (fun e => if e.1 == key then (e.1, bumped) else e) })

/-- DecisionCache.evictOldest: scan the map for the entry with the oldest
creation time, starting from the sentinel empty key, and delete it if one
was found. -/
def DecisionCache.evictOldest (c : DecisionCache) : DecisionCache :=
  let scan := c.entries.foldl
    (fun acc kv =>
      if acc.1 = "" ∨ kv.2.createdAt < acc.2 then (kv.1, kv.2.createdAt) else acc)
    ("", 0)
  if scan.1 ≠ "" then
    { c with entries := c.entries.eraseP (fun kv => kv.1 == scan.1) }
  else c

/-- DecisionCache.Set: evict the oldest entry when the map is at capacity,
then store the new entry with the current time and a zero hit count. -/
def DecisionCache.set (c : DecisionCache) (now : Int) (key : String) (d : Decision) :
    DecisionCache :=
  let c1 := if c.entries.length ≥ c.maxSize then c.evictOldest else c
  { c1 with entries :=
      mapStore c1.entries key { decision := d, createdAt := now, hitCount := 0 } }

/-! ### Batch decision system (BatchDecisionSystem.GetBatchDecisions)

The observation only exposes the fields the modelled control flow reads:
its npc identifier and name. The fingerprint function (hashObservation,
a sha256 of quantized position and gate data) and the response parser
(parseMultiNPCResponse, JSON decoding) are opaque parameters of the model;
the claims considered do not depend on their internals. The context is a
cancellation flag, constant during the call; the LLM outcome parameter is
what callLLMWithFallback would return for the built prompt. -/

/-- An observation, reduced to the identity fields the batch flow reads. -/
structure Obs where
  npcId : String
  name : String
deriving DecidableEq

/-- DefaultDecision from internal/api/manager.go. -/
def DefaultDecision (obs : Obs) : Decision :=
  [("npc_id", obs.npcId), ("action", "explore"), ("reason", "Looking around...")]

/-- The cache-probing phase of GetBatchDecisions: positional decisions
(none marks a miss), fromCache flags, the uncached (index, observation)
pairs in order, and the cache as mutated by the probes. -/
structure Phase1Out where
  decisions : List (Option Decision)
  fromCache : List Bool
  uncached : List (Nat × Obs)
  cache : DecisionCache

/-- Phase 1 of GetBatchDecisions: probe the cache for every observation in
order, filling hits positionally and collecting misses. -/
def phase1 (hash : Obs → String) (now : Int) :
    List Obs → Nat → DecisionCache → Phase1Out
  | [], _, c => { decisions := [], fromCache := [], uncached := [], cache := c }
  | o :: rest, i, c =>
      let g := c.get now (hash o)
      match g.1 with
      | some e =>
          let r := phase1 hash now rest (i + 1) g.2
          { decisions := some e.decision :: r.decisions
            fromCache := true :: r.fromCache
            uncached := r.uncached
            cache := r.cache }
      | none =>
          let r := phase1 hash now rest (i + 1) g.2
          { decisions := none :: r.decisions
            fromCache := false :: r.fromCache
            uncached := (i, o) :: r.uncached
            cache := r.cache }

/-- Phase 4 of GetBatchDecisions on a successful call: distribute the i-th
parsed decision to the i-th uncached slot and cache it; slots beyond the
parsed list get the default decision. -/
def phase4 (hash : Obs → String) (now : Int) (parsed : List Decision) :
    List (Nat × Obs) → Nat → List (Option Decision) → DecisionCache →
    List (Option Decision) × DecisionCache
  | [], _, ds, c => (ds, c)
  | (idx, o) :: rest, i, ds, c =>
      match parsed[i]? with
      | some d =>
          phase4 hash now parsed rest (i + 1) (ds.set idx (some d))
            (c.set now (hash o) d)
      | none =>
          phase4 hash now parsed rest (i + 1)
            (ds.set idx (some (DefaultDecision o))) c

/-- BatchDecisionResponse from internal/api/batch.go. -/
structure BatchResponse where
  decisions : List (Option Decision)
  fromCache : List Bool
  error : Option GoErr
deriving DecidableEq

/-- BatchDecisionSystem.GetBatchDecisions from internal/api/batch.go:
reject empty input, honour an already-cancelled context, probe the cache,
return immediately when everything was cached, otherwise make the combined
LLM call (llm is its outcome); on failure fill every uncached slot with the
default decision and surface no error; on success distribute the parsed
decisions and cache them. The returned Bool is whether the combined LLM
call was made. -/
def GetBatchDecisions (hash : Obs → String)
    (parse : String → List Obs → List Decision) (cancelled : Bool)
    (llm : Except GoErr String) (now : Int) (cache : DecisionCache)
    (observations : List Obs) : BatchResponse × DecisionCache × Bool :=
  if observations.length = 0 then
    ({ decisions := [], fromCache := [], error := some "no observations provided" },
      cache, false)
  else if cancelled then
    ({ decisions := [], fromCache := [], error := some "context canceled" },
      cache, false)
  else
    let p := phase1 hash now observations 0 cache
    if p.uncached.length = 0 then
      ({ decisions := p.decisions, fromCache := p.fromCache, error := none },
        p.cache, false)
    else if cancelled then
      ({ decisions := [], fromCache := [], error := some "context canceled" },
        p.cache, false)
    else
      match llm with
      | Except.error _ =>
          let ds := p.uncached.foldl
            (fun ds io => ds.set io.1 (some (DefaultDecision io.2))) p.decisions
          ({ decisions := ds, fromCache := p.fromCache, error := none },
            p.cache, true)
      | Except.ok response =>
          let parsed := parse response (p.uncached.map (fun io => io.2))
          let r := phase4 hash now parsed p.uncached 0 p.decisions p.cache
          ({ decisions := r.1, fromCache := p.fromCache, error := none },
            r.2, true)

/-- The backoff sleeps performed by the retry loop over attempts
i, i+1, …, i+j (attempt t sleeps 2^(t-1) seconds when t > 0). -/
def backoffs : Nat → Nat → List Nat
  | i, 0 => if i > 0 then [2 ^ (i - 1)] else []
  | i, j + 1 => (if i > 0 then [2 ^ (i - 1)] else []) ++ backoffs (i + 1) j

/-- The indices below j of fallback providers that are not skipped (their
name differs from the active primary's name). -/
def eligibleUpTo (activeName : String) (l : List MProvider) (j : Nat) : List Nat :=
  (List.range j).filter (fun t =>
    match l[t]? with
    | some p => p.name ≠ activeName
    | none => false)

/-- The part of a cache entry that Get never changes: key, decision and
creation time (everything except the hit counter). -/
def entryCore (kv : String × CachedDecision) : String × Decision × Int :=
  (kv.1, kv.2.decision, kv.2.createdAt)

/-- A two-provider router fixture (providers a and b, both weight 1). -/
def exRouter : Router :=
  { balancer := NewBalancer ["a", "b"] (fun _ => 1)
    rateLimiter := NewRateLimiter 5 1 0
    successCount := [], errorCount := [], lastError := [] }

/-- Provider a fails with a retryable error; provider b would succeed. -/
def exBehave : String → Except GoErr CompletionResult × Bool := fun p =>
  if p = "a" then (Except.error "network error: timeout", true)
  else
    (Except.ok
      { content := "ok", provider := "b", model := "m", tokensIn := 0, tokensOut := 0 },
      true)

/-- A single-provider router fixture. -/
def exRouter2 : Router :=
  { balancer := NewBalancer ["a"] (fun _ => 1)
    rateLimiter := NewRateLimiter 5 1 0
    successCount := [], errorCount := [], lastError := [] }

/-- Provider behaviour under an already-cancelled context: the adapter
fails before the network exchange completes, although the backend would
have served a well-formed response. -/
def exBehave2 : String → Except GoErr CompletionResult × Bool := fun p =>
  adapterComplete p "m" true (NetOutcome.response 200 ["hi"] 1 2 "")

/-- A fingerprint fixture: the observation's name. -/
def exHash : Obs → String := fun o => o.name

/-- Two observations. -/
def exObs : List Obs := [{ npcId := "id1", name := "n1" }, { npcId := "id2", name := "n2" }]

/-- A cache holding fresh decisions for both fixture observations. -/
def exCacheAll : DecisionCache :=
  { entries := [("n1", { decision := [("d", "1")], createdAt := 0, hitCount := 0 }),
      ("n2", { decision := [("d", "2")], createdAt := 0, hitCount := 0 })]
    maxSize := 100, ttl := 10 }

/-- A cache holding a fresh decision only for the second observation. -/
def exCacheHalf : DecisionCache :=
  { entries := [("n2", { decision := [("d", "2")], createdAt := 0, hitCount := 0 })]
    maxSize := 100, ttl := 10 }

/-- A cache at its maximum size 2, with entry k1 the oldest. -/
def exCacheFull : DecisionCache :=
  { entries := [("k1", { decision := [("a", "1")], createdAt := 0, hitCount := 0 }),
      ("k2", { decision := [("b", "2")], createdAt := 5, hitCount := 0 })]
    maxSize := 2, ttl := 10 }

/-! ## Theorems -/

/-- Truncated remainder shrinks in absolute value (termination measure of
the Go gcd loop). -/
theorem tmodNatAbsLt (a b : Int) (hb : b ≠ 0) :
    (Int.tmod a b).natAbs < b.natAbs := by
  have key : ∀ x y : Int, 0 < y → (Int.tmod x y).natAbs < y.natAbs := by
    intro x y hy
    rcases le_or_lt 0 x with hx | hx
    · have h1 := Int.tmod_eq_emod hx hy.le
      have h2 := Int.emod_nonneg x (by omega : y ≠ 0)
      have h3 := Int.emod_lt_of_pos x hy
      rw [h1]; omega
    · have hneg : Int.tmod x y = -(Int.tmod (-x) y) := by
        rw [Int.tmod_def, Int.tmod_def, Int.neg_tdiv]; ring
      have h1 := Int.tmod_eq_emod (by omega : (0:Int) ≤ -x) hy.le
      have h2 := Int.emod_nonneg (-x) (by omega : y ≠ 0)
      have h3 := Int.emod_lt_of_pos (-x) hy
      rw [hneg, h1]; omega
  rcases lt_trichotomy b 0 with hneg | hzero | hpos
  · have hswap : Int.tmod a b = Int.tmod a (-b) := by
      conv_lhs => rw [show b = -(-b) by ring, Int.tmod_neg]
    have := key a (-b) (by omega)
    rw [hswap]; omega
  · exact absurd hzero hb
  · exact key a b hpos

/-- The Euclidean loop keeps its first argument positive as long as the
fuel covers the actual number of iterations. -/
theorem goGcdAux_pos :
    ∀ (fuel : Nat) (a b : Int), 1 ≤ a → 0 ≤ b → b.natAbs < fuel →
      1 ≤ goGcdAux fuel a b := by
  intro fuel
  induction fuel with
  | zero => intro a b _ _ hlt; omega
  | succ fuel ih =>
      intro a b ha hb hlt
      rw [goGcdAux]
      split
      · exact ha
      · next h =>
          have hmod := tmodNatAbsLt a b h
          exact ih b (Int.tmod a b) (by omega) (Int.tmod_nonneg b (by omega)) (by omega)

/-- The Go gcd of a positive and a nonnegative int is positive. -/
theorem goGcd_pos (a b : Int) (ha : 1 ≤ a) (hb : 0 ≤ b) : 1 ≤ goGcd a b := by
  exact goGcdAux_pos (b.natAbs + 1) a b ha hb (by omega)

/-- A balancer with a single provider answers it without touching state. -/
theorem single_next {α : Type} (p : α) (w : α → Int) (fuel : Nat) :
    (NewBalancer [p] w).next fuel = (some p, NewBalancer [p] w) := rfl

/-- C9: a balancer constructed with zero backends returns nil from Next()
(and, being a total function, never panics); a balancer constructed with
exactly one backend returns that backend on every one of any number of
Next() calls; and every weight ≤ 0 is normalized to 1 at construction (all
other weights are kept). -/
theorem claim_C9 :
    (∀ (w : Nat → Int) (fuel : Nat),
        (NewBalancer ([] : List Nat) w).next fuel = (none, NewBalancer [] w))
    ∧ (∀ (α : Type) (p : α) (w : α → Int) (n : Nat),
        ((NewBalancer [p] w).run n).1 = List.replicate n (some p))
    ∧ (∀ (α : Type) (ps : List α) (w : α → Int),
        (NewBalancer ps w).providers.map (fun wp => wp.weight)
          = ps.map (fun q => if w q ≤ 0 then 1 else w q)) := by
  refine ⟨fun w fuel => rfl, ?_, ?_⟩
  · intro α p w n
    induction n with
    | zero => rfl
    | succ n ih =>
        show (some p :: ((NewBalancer [p] w).run n).1) = _
        rw [ih]
        rfl
  · intro α ps w
    cases ps with
    | nil => rfl
    | cons p0 rest =>
        simp only [NewBalancer, List.map_cons, List.map_map]
        rfl

/-- C4: AdmissionController.Wait(cost) never errors (it is a total function
of the state, the clock and the cost); it refills by elapsed·refillRate
capped at capacity, then either sleeps exactly (cost − available)/refillRate
and zeroes the bucket, or debits immediately without sleeping. With
capacity 5 and refill rate 1 token/s, Wait(5) followed after e ≤ 1 seconds
by Wait(1) makes the second call sleep exactly 1 − e seconds (≈ 1 second
for an immediate second call). -/
theorem claim_C4 :
    (∀ (r : RateLimiter) (now cost : ℚ),
        (min r.maxTokens (r.tokens + (now - r.lastRefill) * r.refillRate) < cost →
          (r.wait now cost).2
              = (cost - min r.maxTokens (r.tokens + (now - r.lastRefill) * r.refillRate))
                / r.refillRate
            ∧ (r.wait now cost).1.tokens = 0)
        ∧ (cost ≤ min r.maxTokens (r.tokens + (now - r.lastRefill) * r.refillRate) →
          (r.wait now cost).2 = 0
            ∧ (r.wait now cost).1.tokens
                = min r.maxTokens (r.tokens + (now - r.lastRefill) * r.refillRate) - cost))
    ∧ (∀ t0 e : ℚ, 0 ≤ e → e ≤ 1 →
        ((NewRateLimiter 5 1 t0).wait t0 5).2 = 0
        ∧ ((((NewRateLimiter 5 1 t0).wait t0 5).1).wait (t0 + e) 1).2 = 1 - e) := by
  constructor
  · intro r now cost
    constructor
    · intro hlt
      simp only [RateLimiter.wait]
      rw [if_pos hlt]
      exact ⟨rfl, rfl⟩
    · intro hge
      simp only [RateLimiter.wait]
      rw [if_neg (not_lt.mpr hge)]
      exact ⟨rfl, rfl⟩
  · intro t0 e he0 he1
    have h1 : ((NewRateLimiter 5 1 t0).wait t0 5)
        = ({ tokens := 0, maxTokens := 5, refillRate := 1, lastRefill := t0 }, 0) := by
      simp only [RateLimiter.wait, NewRateLimiter]
      norm_num
    refine ⟨by rw [h1], ?_⟩
    rw [h1]
    simp only [RateLimiter.wait]
    have hmin : min (5:ℚ) (0 + (t0 + e - t0) * 1) = e := by
      rw [min_eq_right (by linarith)]
      ring
    rw [hmin]
    rcases lt_or_eq_of_le he1 with h | h
    · rw [if_pos h]
      norm_num
    · rw [if_neg (by rw [h]; exact lt_irrefl 1)]
      simp [h]

/-- Every state in the test cycle steps (by one whole Next() call) to a
state in the test cycle. -/
theorem testCycle_closed : ∀ s ∈ testCycle, stepB s ∈ testCycle := by decide

/-- The test balancer's initial state is in the test cycle. -/
theorem testBalancer_mem : testBalancer ∈ testCycle := by decide

/-- Running any number of calls from a test-cycle state stays in the test
cycle. -/
theorem run_mem_testCycle :
    ∀ (k : Nat) (s : Balancer Nat), s ∈ testCycle → (s.run k).2 ∈ testCycle := by
  intro k
  induction k with
  | zero => intro s hs; exact hs
  | succ k ih =>
      intro s hs
      show ((stepB s).run k).2 ∈ testCycle
      exact ih (stepB s) (testCycle_closed s hs)

/-- From every test-cycle state, the next 60 selections split exactly
30/20/10 across the three providers and never pick provider 0 three times
in a row. -/
theorem testCycle_window :
    ∀ s ∈ testCycle,
      (s.run 60).1.count (some 0) = 30 ∧ (s.run 60).1.count (some 1) = 20
      ∧ (s.run 60).1.count (some 2) = 10
      ∧ hasTripleRun (some 0) (s.run 60).1 = false := by decide

/-- C3: for the balancer built from three backends of weights 3, 2 and 1,
every window of 60 consecutive Next() calls (starting after any number k of
earlier calls) selects the backends within ±5 of 30, 20 and 10 times
respectively, and the weight-3 backend is never selected three times
consecutively anywhere in the window. -/
theorem claim_C3 (k : Nat) :
    25 ≤ (((testBalancer.run k).2).run 60).1.count (some 0)
    ∧ (((testBalancer.run k).2).run 60).1.count (some 0) ≤ 35
    ∧ 15 ≤ (((testBalancer.run k).2).run 60).1.count (some 1)
    ∧ (((testBalancer.run k).2).run 60).1.count (some 1) ≤ 25
    ∧ 5 ≤ (((testBalancer.run k).2).run 60).1.count (some 2)
    ∧ (((testBalancer.run k).2).run 60).1.count (some 2) ≤ 15
    ∧ hasTripleRun (some 0) (((testBalancer.run k).2).run 60).1 = false := by
  have hmem := run_mem_testCycle k testBalancer testBalancer_mem
  obtain ⟨h0, h1, h2, h3⟩ := testCycle_window _ hmem
  exact ⟨by omega, by omega, by omega, by omega, by omega, by omega, h3⟩

/-- find? by key misses iff no entry has the key. -/
theorem find_key_none {β : Type} (l : List (String × β)) (k : String)
    (h : ∀ kv ∈ l, kv.1 ≠ k) : l.find? (fun e => e.1 == k) = none := by
  apply List.find?_eq_none.mpr
  intro x hx
  simpa using h x hx

/-- find? by key on a list ending in that key finds the final pair when no
earlier entry has the key. -/
theorem find_key_append {β : Type} (l : List (String × β)) (k : String) (v : β)
    (h : ∀ kv ∈ l, kv.1 ≠ k) :
    (l ++ [(k, v)]).find? (fun e => e.1 == k) = some (k, v) := by
  induction l with
  | nil => simp
  | cons e t ih =>
      have he : (e.1 == k) = false := by
        simpa using h e (List.mem_cons_self e t)
      simp only [List.cons_append, List.find?]
      rw [he]
      exact ih (fun kv hkv => h kv (List.mem_cons_of_mem e hkv))

/-- Storing a fresh key appends the pair at the end. -/
theorem mapStore_fresh {β : Type} (l : List (String × β)) (k : String) (v : β)
    (h : ∀ kv ∈ l, kv.1 ≠ k) : mapStore l k v = l ++ [(k, v)] := by
  simp only [mapStore, find_key_none l k h, Option.isSome_none, Bool.false_eq_true,
    if_false]

/-- The accumulator pass of evictOldest: starting from a named accumulator,
the fold returns either the accumulator or some visited entry, never
increases the tracked time, and ends at or below every visited entry's
creation time. -/
theorem evictScanAux (l : List (String × CachedDecision)) :
    ∀ acc : String × Int, acc.1 ≠ "" → (∀ kv ∈ l, kv.1 ≠ "") →
      (l.foldl (fun acc kv =>
          if acc.1 = "" ∨ kv.2.createdAt < acc.2 then (kv.1, kv.2.createdAt) else acc)
        acc = acc
        ∨ ∃ kv ∈ l,
            l.foldl (fun acc kv =>
              if acc.1 = "" ∨ kv.2.createdAt < acc.2 then (kv.1, kv.2.createdAt) else acc)
            acc = (kv.1, kv.2.createdAt))
      ∧ (l.foldl (fun acc kv =>
          if acc.1 = "" ∨ kv.2.createdAt < acc.2 then (kv.1, kv.2.createdAt) else acc)
        acc).2 ≤ acc.2
      ∧ (∀ kv ∈ l,
          (l.foldl (fun acc kv =>
            if acc.1 = "" ∨ kv.2.createdAt < acc.2 then (kv.1, kv.2.createdAt) else acc)
          acc).2 ≤ kv.2.createdAt)
      ∧ (l.foldl (fun acc kv =>
          if acc.1 = "" ∨ kv.2.createdAt < acc.2 then (kv.1, kv.2.createdAt) else acc)
        acc).1 ≠ "" := by
  induction l with
  | nil =>
      intro acc hacc _
      exact ⟨Or.inl rfl, le_refl _, fun kv hkv => absurd hkv (List.not_mem_nil kv), hacc⟩
  | cons e t ih =>
      intro acc hacc hk
      have hke : e.1 ≠ "" := hk e (List.mem_cons_self e t)
      have hkt : ∀ kv ∈ t, kv.1 ≠ "" := fun kv hkv => hk kv (List.mem_cons_of_mem e hkv)
      simp only [List.foldl_cons]
      by_cases hcond : acc.1 = "" ∨ e.2.createdAt < acc.2
      · rw [if_pos hcond]
        have hlt : e.2.createdAt < acc.2 := by
          rcases hcond with h | h
          · exact absurd h hacc
          · exact h
        obtain ⟨hmem, hle, hall, hne⟩ := ih (e.1, e.2.createdAt) hke hkt
        refine ⟨?_, ?_, ?_, hne⟩
        · rcases hmem with h | ⟨kv, hkv, h⟩
          · exact Or.inr ⟨e, List.mem_cons_self e t, h⟩
          · exact Or.inr ⟨kv, List.mem_cons_of_mem e hkv, h⟩
        · calc _ ≤ e.2.createdAt := hle
            _ ≤ acc.2 := hlt.le
        · intro kv hkv
          rcases List.mem_cons.mp hkv with h | h
          · subst h; exact hle
          · exact hall kv h
      · rw [if_neg hcond]
        push_neg at hcond
        obtain ⟨hmem, hle, hall, hne⟩ := ih acc hacc hkt
        refine ⟨?_, hle, ?_, hne⟩
        · rcases hmem with h | ⟨kv, hkv, h⟩
          · exact Or.inl h
          · exact Or.inr ⟨kv, List.mem_cons_of_mem e hkv, h⟩
        · intro kv hkv
          rcases List.mem_cons.mp hkv with h | h
          · subst h; exact le_trans hle hcond.2
          · exact hall kv h

/-- evictOldest's scan over a nonempty map with nonempty keys lands on an
entry whose creation time is minimal. -/
theorem evictScan_spec (l : List (String × CachedDecision)) (hne : l ≠ [])
    (hk : ∀ kv ∈ l, kv.1 ≠ "") :
    ∃ kv ∈ l,
      l.foldl (fun acc kv =>
          if acc.1 = "" ∨ kv.2.createdAt < acc.2 then (kv.1, kv.2.createdAt) else acc)
        ("", 0) = (kv.1, kv.2.createdAt)
      ∧ (∀ kv2 ∈ l, kv.2.createdAt ≤ kv2.2.createdAt)
      ∧ kv.1 ≠ "" := by
  cases l with
  | nil => exact absurd rfl hne
  | cons e t =>
      have hke : e.1 ≠ "" := hk e (List.mem_cons_self e t)
      have hkt : ∀ kv ∈ t, kv.1 ≠ "" := fun kv hkv => hk kv (List.mem_cons_of_mem e hkv)
      simp only [List.foldl_cons, if_pos (Or.inl rfl)]
      obtain ⟨hmem, hle, hall, hne2⟩ := evictScanAux t (e.1, e.2.createdAt) hke hkt
      rcases hmem with h | ⟨kv, hkv, h⟩
      · refine ⟨e, List.mem_cons_self e t, h, ?_, hke⟩
        intro kv2 hkv2
        rcases List.mem_cons.mp hkv2 with h2 | h2
        · subst h2; exact le_refl _
        · have := hall kv2 h2
          rw [h] at this
          exact this
      · refine ⟨kv, List.mem_cons_of_mem e hkv, h, ?_, hkt kv hkv⟩
        intro kv2 hkv2
        have hmin : kv.2.createdAt ≤ e.2.createdAt := by
          have := hle; rw [h] at this; exact this
        rcases List.mem_cons.mp hkv2 with h2 | h2
        · subst h2; exact hmin
        · have := hall kv2 h2
          rw [h] at this
          exact this

/-- Under unique keys, erasing by an entry's key removes that entry. -/
theorem not_mem_eraseP_key {β : Type} :
    ∀ l : List (String × β), (l.map Prod.fst).Nodup →
      ∀ kv ∈ l, kv ∉ l.eraseP (fun e => e.1 == kv.1) := by
  intro l
  induction l with
  | nil => intro _ kv hkv; cases hkv
  | cons e t ih =>
      intro hnodup kv hkv
      rw [List.map_cons, List.nodup_cons] at hnodup
      by_cases hek : e.1 = kv.1
      · rw [List.eraseP_cons_of_pos (by simp [hek])]
        intro hcon
        exact hnodup.1 (List.mem_map.mpr ⟨kv, hcon, hek.symm⟩)
      · rw [List.eraseP_cons_of_neg (by simp [hek])]
        intro hcon
        rcases List.mem_cons.mp hcon with h | h
        · exact hek (by rw [h])
        · have hmem : kv ∈ t := by
            rcases List.mem_cons.mp hkv with h2 | h2
            · exact absurd (by rw [h2]) hek
            · exact h2
          exact ih hnodup.2 kv hmem h

/-- Set never changes the configured ttl. -/
theorem set_ttl (c : DecisionCache) (now : Int) (key : String) (d : Decision) :
    (c.set now key d).ttl = c.ttl := by
  simp only [DecisionCache.set, DecisionCache.evictOldest]
  split
  · split
    · rfl
    · rfl
  · rfl

/-- C5: setting a fresh fingerprint in a cache at its maximum size evicts
exactly one existing entry — one whose creation timestamp is oldest — and
the new entry is immediately retrievable by Get. -/
theorem claim_C5 (c : DecisionCache) (now : Int) (key : String) (d : Decision)
    (hfull : c.entries.length = c.maxSize) (hpos : 0 < c.maxSize)
    (hkeys : ∀ kv ∈ c.entries, kv.1 ≠ "")
    (hnodup : (c.entries.map Prod.fst).Nodup)
    (hnew : ∀ kv ∈ c.entries, kv.1 ≠ key)
    (httl : 0 ≤ c.ttl) :
    ∃ kv ∈ c.entries,
      (∀ kv2 ∈ c.entries, kv.2.createdAt ≤ kv2.2.createdAt)
      ∧ (c.set now key d).entries
          = c.entries.eraseP (fun e => e.1 == kv.1)
            ++ [(key, { decision := d, createdAt := now, hitCount := 0 })]
      ∧ kv ∉ (c.set now key d).entries
      ∧ (c.set now key d).entries.length = c.maxSize
      ∧ ∃ e2, ((c.set now key d).get now key).1 = some e2 ∧ e2.decision = d := by
  have hne : c.entries ≠ [] := by
    intro h
    rw [h] at hfull
    simp at hfull
    omega
  obtain ⟨kv, hkv, hscan, hmin, hkne⟩ := evictScan_spec c.entries hne hkeys
  have hevict : c.evictOldest
      = { c with entries := c.entries.eraseP (fun e => e.1 == kv.1) } := by
    simp only [DecisionCache.evictOldest, hscan]
    rw [if_pos hkne]
  have herased_sub : ∀ e ∈ c.entries.eraseP (fun e => e.1 == kv.1), e ∈ c.entries :=
    fun e he => (List.eraseP_sublist c.entries).subset he
  have hset : (c.set now key d).entries
      = c.entries.eraseP (fun e => e.1 == kv.1)
        ++ [(key, { decision := d, createdAt := now, hitCount := 0 })] := by
    simp only [DecisionCache.set]
    rw [if_pos (show c.entries.length ≥ c.maxSize by omega)]
    rw [hevict]
    exact mapStore_fresh _ key _ (fun e he => hnew e (herased_sub e he))
  refine ⟨kv, hkv, hmin, hset, ?_, ?_, ?_⟩
  · rw [hset]
    intro hcon
    rcases List.mem_append.mp hcon with h | h
    · exact not_mem_eraseP_key c.entries hnodup kv hkv h
    · have : kv = (key, { decision := d, createdAt := now, hitCount := 0 }) := by
        simpa using h
      exact hnew kv hkv (by rw [this])
  · rw [hset]
    rw [List.length_append,
      List.length_eraseP_of_mem hkv (by simp : ((fun e => e.1 == kv.1) kv) = true)]
    simp only [List.length_cons, List.length_nil]
    omega
  · have hfind2 : ((c.set now key d).entries).find? (fun e => e.1 == key)
        = some (key, { decision := d, createdAt := now, hitCount := 0 }) := by
      rw [hset]
      exact find_key_append _ key _ (fun e he => hnew e (herased_sub e he))
    have hcond : ¬ now
        - ((key, ({ decision := d, createdAt := now, hitCount := 0 } : CachedDecision))
            : String × CachedDecision).2.createdAt
        > (c.set now key d).ttl := by
      rw [set_ttl]
      show ¬ now - now > c.ttl
      omega
    simp only [DecisionCache.get, hfind2]
    rw [if_neg hcond]
    exact ⟨_, rfl, rfl⟩

/-- C6: an entry created at time T is returned by Get at every time
strictly before T + ttl; at every time after T + ttl it is reported absent
and the cache is left unchanged (the expired entry is not removed); a
successful lookup changes no keys. -/
theorem claim_C6 (c : DecisionCache) (key : String) (kv : String × CachedDecision)
    (now : Int) (hfind : c.entries.find? (fun e => e.1 == key) = some kv) :
    (now < kv.2.createdAt + c.ttl →
      ∃ e2, (c.get now key).1 = some e2 ∧ e2.decision = kv.2.decision
        ∧ e2.createdAt = kv.2.createdAt)
    ∧ (now > kv.2.createdAt + c.ttl →
      (c.get now key).1 = none ∧ (c.get now key).2 = c)
    ∧ (c.get now key).2.entries.map Prod.fst = c.entries.map Prod.fst := by
  refine ⟨?_, ?_, ?_⟩
  · intro hbefore
    simp only [DecisionCache.get, hfind]
    rw [if_neg (by omega : ¬ now - kv.2.createdAt > c.ttl)]
    exact ⟨_, rfl, rfl, rfl⟩
  · intro hafter
    simp only [DecisionCache.get, hfind]
    rw [if_pos (by omega : now - kv.2.createdAt > c.ttl)]
    exact ⟨rfl, rfl⟩
  · simp only [DecisionCache.get, hfind]
    by_cases hexp : now - kv.2.createdAt > c.ttl
    · rw [if_pos hexp]
    · rw [if_neg hexp]
      simp only [List.map_map]
      apply List.map_congr_left
      intro e _
      by_cases he : e.1 = key
      · simp [Function.comp, he]
      · simp [Function.comp, he]

/-- The max/gcd fold of NewBalancer keeps acc.1 as a maximum that is either
the starting value or an encountered weight, keeps the gcd positive, and
dominates every encountered weight. -/
theorem foldMG {α : Type} :
    ∀ (l : List (WeightedProvider α)) (acc : Int × Int),
      1 ≤ acc.1 → 1 ≤ acc.2 → (∀ wp ∈ l, 1 ≤ wp.weight) →
      acc.1 ≤ (l.foldl (fun acc wp =>
          (if wp.weight > acc.1 then wp.weight else acc.1, goGcd acc.2 wp.weight)) acc).1
      ∧ 1 ≤ (l.foldl (fun acc wp =>
          (if wp.weight > acc.1 then wp.weight else acc.1, goGcd acc.2 wp.weight)) acc).2
      ∧ ((l.foldl (fun acc wp =>
          (if wp.weight > acc.1 then wp.weight else acc.1, goGcd acc.2 wp.weight)) acc).1
            = acc.1
          ∨ ∃ wp ∈ l, wp.weight = (l.foldl (fun acc wp =>
              (if wp.weight > acc.1 then wp.weight else acc.1, goGcd acc.2 wp.weight))
                acc).1)
      ∧ (∀ wp ∈ l, wp.weight ≤ (l.foldl (fun acc wp =>
          (if wp.weight > acc.1 then wp.weight else acc.1, goGcd acc.2 wp.weight))
            acc).1) := by
  intro l
  induction l with
  | nil =>
      intro acc h1 h2 _
      exact ⟨le_refl _, h2, Or.inl rfl, fun wp hwp => absurd hwp (List.not_mem_nil wp)⟩
  | cons e t ih =>
      intro acc h1 h2 hall
      have he : 1 ≤ e.weight := hall e (List.mem_cons_self e t)
      have ht : ∀ wp ∈ t, 1 ≤ wp.weight :=
        fun wp hwp => hall wp (List.mem_cons_of_mem e hwp)
      simp only [List.foldl_cons]
      have hacc1 : 1 ≤ (if e.weight > acc.1 then e.weight else acc.1) := by
        split
        · exact he
        · exact h1
      have hacc2 : 1 ≤ goGcd acc.2 e.weight := goGcd_pos acc.2 e.weight h2 (by omega)
      obtain ⟨g1, g2, g3, g4⟩ :=
        ih ((if e.weight > acc.1 then e.weight else acc.1, goGcd acc.2 e.weight)) hacc1
          hacc2 ht
      have hstep : acc.1 ≤ (if e.weight > acc.1 then e.weight else acc.1) := by
        split
        · next h => exact le_of_lt h
        · exact le_refl _
      refine ⟨le_trans hstep g1, g2, ?_, ?_⟩
      · rcases g3 with h | ⟨wp, hwp, h⟩
        · by_cases hgt : e.weight > acc.1
          · refine Or.inr ⟨e, List.mem_cons_self e t, ?_⟩
            rw [h]
            show e.weight = (if e.weight > acc.1 then e.weight else acc.1)
            rw [if_pos hgt]
          · refine Or.inl ?_
            rw [h]
            show (if e.weight > acc.1 then e.weight else acc.1) = acc.1
            rw [if_neg hgt]
        · exact Or.inr ⟨wp, List.mem_cons_of_mem e hwp, h⟩
      · intro wp hwp
        rcases List.mem_cons.mp hwp with h | h
        · subst h
          refine le_trans ?_ g1
          split
          · exact le_refl _
          · next hgt => omega
        · exact g4 wp h

/-- Construction facts about a balancer built from a nonempty provider
list: all weights are ≥ 1, the maximum weight dominates and is attained,
the gcd is positive, and the rotation state starts at (-1, 0). -/
theorem NewBalancer_facts {α : Type} (ps : List α) (w : α → Int) (hps : ps ≠ []) :
    (∀ wp ∈ (NewBalancer ps w).providers, 1 ≤ wp.weight)
    ∧ (∀ wp ∈ (NewBalancer ps w).providers, wp.weight ≤ (NewBalancer ps w).maxWeight)
    ∧ (∃ wp ∈ (NewBalancer ps w).providers, wp.weight = (NewBalancer ps w).maxWeight)
    ∧ 1 ≤ (NewBalancer ps w).gcd
    ∧ (NewBalancer ps w).providers.length = ps.length
    ∧ (NewBalancer ps w).lastIndex = -1
    ∧ (NewBalancer ps w).currentWeight = 0 := by
  cases ps with
  | nil => exact absurd rfl hps
  | cons p0 rest =>
      simp only [NewBalancer, List.map_cons]
      have hw0 : 1 ≤ (if w p0 ≤ 0 then 1 else w p0) := by split <;> omega
      have hrest : ∀ wp ∈ rest.map (fun p =>
          ({ provider := p, weight := if w p ≤ 0 then 1 else w p } : WeightedProvider α)),
          1 ≤ wp.weight := by
        intro wp hwp
        obtain ⟨p, _, hp⟩ := List.mem_map.mp hwp
        rw [← hp]
        simp only []
        split <;> omega
      obtain ⟨g1, g2, g3, g4⟩ := foldMG (α := α)
        (rest.map (fun p =>
          ({ provider := p, weight := if w p ≤ 0 then 1 else w p } : WeightedProvider α)))
        ((if w p0 ≤ 0 then 1 else w p0), (if w p0 ≤ 0 then 1 else w p0)) hw0 hw0 hrest
      refine ⟨?_, ?_, ?_, g2, by simp, by trivial, by trivial⟩
      · intro wp hwp
        rcases List.mem_cons.mp hwp with h | h
        · rw [h]
          exact hw0
        · exact hrest wp h
      · intro wp hwp
        rcases List.mem_cons.mp hwp with h | h
        · rw [h]
          exact g1
        · exact g4 wp h
      · rcases g3 with h | ⟨wp, hwp, h⟩
        · exact ⟨_, List.mem_cons_self _ _, h.symm⟩
        · exact ⟨wp, List.mem_cons_of_mem _ hwp, h⟩

/-- The scan loop only ever returns an index in [0, n) and a current weight
at most maxWeight, provided it starts from the invariant. -/
theorem nextLoop_bounds {α : Type} (b : Balancer α) (hg : 0 ≤ b.gcd)
    (hn0 : 0 < b.providers.length) :
    ∀ (fuel : Nat) (li cw : Int) (wp : WeightedProvider α) (li2 cw2 : Int),
      -1 ≤ li → cw ≤ b.maxWeight →
      nextLoop b fuel li cw = some (wp, li2, cw2) →
      0 ≤ li2 ∧ li2 < (b.providers.length : Int) ∧ cw2 ≤ b.maxWeight := by
  intro fuel
  induction fuel with
  | zero =>
      intro li cw wp li2 cw2 _ _ hcon
      exact absurd hcon (by simp [nextLoop])
  | succ fuel ih =>
      intro li cw wp li2 cw2 hli hcw heq
      have h0 : 0 ≤ Int.tmod (li + 1) (b.providers.length : Int) :=
        Int.tmod_nonneg _ (by omega)
      have h1 : Int.tmod (li + 1) (b.providers.length : Int) < (b.providers.length : Int) :=
        Int.tmod_lt_of_pos (li + 1) (by exact_mod_cast hn0)
      have hcw2 : (if Int.tmod (li + 1) (b.providers.length : Int) = 0 then
          (if cw - b.gcd ≤ 0 then b.maxWeight else cw - b.gcd) else cw) ≤ b.maxWeight := by
        split
        · split
          · exact le_refl _
          · omega
        · exact hcw
      rw [nextLoop] at heq
      rcases hopt : b.providers[(Int.tmod (li + 1) (b.providers.length : Int)).toNat]? with
        _ | wp3
      · rw [hopt] at heq
        simp at heq
      · rw [hopt] at heq
        simp only [] at heq
        by_cases hsel : wp3.weight ≥ (if Int.tmod (li + 1) (b.providers.length : Int) = 0
            then (if cw - b.gcd ≤ 0 then b.maxWeight else cw - b.gcd) else cw)
        · rw [if_pos hsel] at heq
          simp only [Option.some.injEq, Prod.mk.injEq] at heq
          obtain ⟨-, hli2eq, hcw2eq⟩ := heq
          rw [← hli2eq, ← hcw2eq]
          exact ⟨h0, h1, hcw2⟩
        · rw [if_neg hsel] at heq
          exact ih _ _ wp li2 cw2 (by omega) hcw2 heq

/-- The scan loop of Next finds an eligible entry before the fuel runs out:
the distance (in scan steps) to a maximal-weight entry, plus one, always
suffices, because the current weight never exceeds the maximal weight. -/
theorem nextLoop_isSome {α : Type} (b : Balancer α)
    (hg : 0 ≤ b.gcd)
    (hle : ∀ wp ∈ b.providers, wp.weight ≤ b.maxWeight)
    (m : Nat) (hm : m < b.providers.length)
    (hmw : ∀ wp, b.providers[m]? = some wp → wp.weight = b.maxWeight) :
    ∀ (fuel : Nat) (li cw : Int), -1 ≤ li → li < (b.providers.length : Int) →
      cw ≤ b.maxWeight →
      distN ((Int.tmod (li + 1) (b.providers.length : Int)).toNat) m
          b.providers.length + 1 ≤ fuel →
      (nextLoop b fuel li cw).isSome = true := by
  intro fuel
  induction fuel with
  | zero => intro li cw _ _ _ hfuel; omega
  | succ fuel ih =>
      intro li cw hli1 hli2 hcw hfuel
      have hn0 : 0 < b.providers.length := lt_of_le_of_lt (Nat.zero_le m) hm
      have h0 : 0 ≤ Int.tmod (li + 1) (b.providers.length : Int) :=
        Int.tmod_nonneg _ (by omega)
      have h1 : Int.tmod (li + 1) (b.providers.length : Int) < (b.providers.length : Int) :=
        Int.tmod_lt_of_pos (li + 1) (by exact_mod_cast hn0)
      have hjlt : (Int.tmod (li + 1) (b.providers.length : Int)).toNat
          < b.providers.length := by omega
      have hcw2 : (if Int.tmod (li + 1) (b.providers.length : Int) = 0 then
          (if cw - b.gcd ≤ 0 then b.maxWeight else cw - b.gcd) else cw)
          ≤ b.maxWeight := by
        split
        · split
          · exact le_refl _
          · omega
        · exact hcw
      rw [nextLoop]
      rcases hopt : b.providers[(Int.tmod (li + 1) (b.providers.length : Int)).toNat]? with
        _ | wp
      · have h2 := List.getElem?_eq_getElem hjlt
        rw [hopt] at h2
        simp at h2
      · simp only []
        by_cases hsel : wp.weight
            ≥ (if Int.tmod (li + 1) (b.providers.length : Int) = 0
                then (if cw - b.gcd ≤ 0 then b.maxWeight else cw - b.gcd) else cw)
        · rw [if_pos hsel]
          rfl
        · rw [if_neg hsel]
          -- the scanned index cannot be the maximal one
          have hjm : (Int.tmod (li + 1) (b.providers.length : Int)).toNat ≠ m := by
            intro hcon
            apply hsel
            rw [hcon] at hopt
            rw [hmw wp hopt]
            exact hcw2
          -- characterize the next scan index and shrink the distance
          have hnextj : (Int.tmod (Int.tmod (li + 1) (b.providers.length : Int) + 1)
              (b.providers.length : Int)).toNat
              = (if (Int.tmod (li + 1) (b.providers.length : Int)).toNat + 1
                  = b.providers.length then 0
                else (Int.tmod (li + 1) (b.providers.length : Int)).toNat + 1) := by
            split
            · next hwrap =>
                have : Int.tmod (li + 1) (b.providers.length : Int) + 1
                    = (b.providers.length : Int) := by omega
                rw [this, Int.tmod_self]
                rfl
            · next hwrap =>
                rw [Int.tmod_eq_of_lt (by omega) (by omega)]
                omega
          apply ih _ _ (by omega) h1 hcw2
          rw [hnextj]
          have hdrop : distN (if (Int.tmod (li + 1) (b.providers.length : Int)).toNat + 1
                  = b.providers.length then 0
                else (Int.tmod (li + 1) (b.providers.length : Int)).toNat + 1) m
                b.providers.length
              < distN ((Int.tmod (li + 1) (b.providers.length : Int)).toNat) m
                b.providers.length := by
            simp only [distN]
            split
            · split
              · split
                · omega
                · omega
              · split
                · omega
                · omega
            · split
              · split
                · omega
                · omega
              · split
                · omega
                · omega
          omega

/-- C10: for every balancer built from a nonempty provider list, the
rotation state satisfies the invariant at construction, every Next() scan
from an invariant state finds an eligible entry within 2·n loop iterations
(at most two passes over the list, since after every reset currentWeight
equals maxWeight and some entry attains maxWeight), and a completed scan
re-establishes the invariant. -/
theorem claim_C10 {α : Type} (ps : List α) (w : α → Int) (hps : ps ≠ []) :
    balancerInv (NewBalancer ps w) (NewBalancer ps w).lastIndex
      (NewBalancer ps w).currentWeight
    ∧ (∃ wp ∈ (NewBalancer ps w).providers,
        wp.weight = (NewBalancer ps w).maxWeight)
    ∧ (∀ li cw, balancerInv (NewBalancer ps w) li cw →
        (nextLoop (NewBalancer ps w) (2 * (NewBalancer ps w).providers.length)
          li cw).isSome = true)
    ∧ (∀ fuel li cw wp li2 cw2, balancerInv (NewBalancer ps w) li cw →
        nextLoop (NewBalancer ps w) fuel li cw = some (wp, li2, cw2) →
        balancerInv (NewBalancer ps w) li2 cw2) := by
  obtain ⟨f1, f2, f3, f4, f5, f6, f7⟩ := NewBalancer_facts ps w hps
  have hn0 : 0 < (NewBalancer ps w).providers.length := by
    rw [f5]
    exact List.length_pos.mpr hps
  obtain ⟨wpx, hwpx, hwpxw⟩ := f3
  obtain ⟨m, hm, hgetm⟩ := List.getElem_of_mem hwpx
  have hmw : ∀ wp, (NewBalancer ps w).providers[m]? = some wp →
      wp.weight = (NewBalancer ps w).maxWeight := by
    intro wp hwp
    rw [List.getElem?_eq_getElem hm] at hwp
    have : wp = wpx := by
      injection hwp with h
      rw [← h, hgetm]
    rw [this, hwpxw]
  have hmax0 : 0 ≤ (NewBalancer ps w).maxWeight := by
    have := f1 wpx hwpx
    omega
  refine ⟨⟨by rw [f6], by rw [f6]; omega, by rw [f7]; exact hmax0⟩,
    ⟨wpx, hwpx, hwpxw⟩, ?_, ?_⟩
  · intro li cw hinv
    obtain ⟨i1, i2, i3⟩ := hinv
    apply nextLoop_isSome (NewBalancer ps w) (by omega) f2 m hm hmw _ li cw i1 i2 i3
    have hj0 : 0 ≤ Int.tmod (li + 1) ((NewBalancer ps w).providers.length : Int) :=
      Int.tmod_nonneg _ (by omega)
    have hj1 : Int.tmod (li + 1) ((NewBalancer ps w).providers.length : Int)
        < ((NewBalancer ps w).providers.length : Int) :=
      Int.tmod_lt_of_pos (li + 1) (by exact_mod_cast hn0)
    simp only [distN]
    split
    · omega
    · omega
  · intro fuel li cw wp li2 cw2 hinv heq
    obtain ⟨i1, i2, i3⟩ := hinv
    obtain ⟨j1, j2, j3⟩ :=
      nextLoop_bounds (NewBalancer ps w) (by omega) hn0 fuel li cw wp li2 cw2 i1 i3 heq
    exact ⟨by omega, j2, j3⟩

/-- The retry loop succeeds at attempt i+j after j retryable failures,
sleeping the backoffs of attempts i..i+j. -/
theorem retryLoop_ok (call : Nat → Except GoErr String) (v : String) :
    ∀ (j rem i : Nat) (le : GoErr), j < rem →
      (∀ t, t < j → ∃ e, call (i + t) = Except.error e ∧ isRetryableError e = true) →
      call (i + j) = Except.ok v →
      retryLoop call rem i le = (Except.ok v, backoffs i j) := by
  intro j
  induction j with
  | zero =>
      intro rem i le hrem _ hok
      cases rem with
      | zero => omega
      | succ r =>
          rw [retryLoop]
          rw [show call i = Except.ok v from by simpa using hok]
          rfl
  | succ j ih =>
      intro rem i le hrem hfail hok
      cases rem with
      | zero => omega
      | succ r =>
          obtain ⟨e, he, hre⟩ := hfail 0 (by omega)
          have hrest : retryLoop call r (i + 1) e = (Except.ok v, backoffs (i + 1) j) := by
            apply ih r (i + 1) e (by omega)
            · intro t ht
              obtain ⟨e2, he2, hre2⟩ := hfail (t + 1) (by omega)
              exact ⟨e2, by rw [show i + 1 + t = i + (t + 1) by omega]; exact he2, hre2⟩
            · rw [show i + 1 + j = i + (j + 1) by omega]
              exact hok
          rw [retryLoop]
          rw [show call i = Except.error e from by simpa using he]
          simp only []
          generalize hs : (if i > 0 then [2 ^ (i - 1)] else ([] : List Nat)) = sleeps
          rw [if_pos (by rw [hre])]
          rw [hrest]
          rw [backoffs]
          rw [hs]

/-- The backoffs starting at attempt i+1 are 2^i, …, 2^(i+j). -/
theorem backoffs_shift :
    ∀ (j i : Nat), backoffs (i + 1) j = (List.range (j + 1)).map (fun t => 2 ^ (i + t)) := by
  intro j
  induction j with
  | zero => intro i; simp [backoffs, show List.range 1 = [0] from rfl]
  | succ j ih =>
      intro i
      rw [backoffs]
      rw [if_pos (by omega)]
      rw [show i + 1 - 1 = i by omega]
      rw [ih (i + 1)]
      rw [List.range_succ_eq_map (j + 1), List.map_cons, List.map_map]
      have : (List.range (j + 1)).map ((fun t => 2 ^ (i + t)) ∘ Nat.succ)
          = (List.range (j + 1)).map (fun t => 2 ^ (i + 1 + t)) := by
        apply List.map_congr_left
        intro t _
        simp only [Function.comp]
        rw [show i + t.succ = i + 1 + t by omega]
      rw [this]
      simp

/-- The backoffs of a run starting at attempt 0 with j retries are
2^0, …, 2^(j-1). -/
theorem backoffs_zero :
    ∀ j : Nat, backoffs 0 j = (List.range j).map (fun t => 2 ^ t) := by
  intro j
  cases j with
  | zero => rfl
  | succ j =>
      rw [backoffs]
      rw [if_neg (by omega)]
      rw [backoffs_shift j 0]
      rw [List.nil_append]
      apply List.map_congr_left
      intro t _
      rw [Nat.zero_add]

/-- Splitting the eligible fallback indices at a cons cell. -/
theorem eligible_cons (a : String) (p : MProvider) (rest : List MProvider) (j : Nat) :
    eligibleUpTo a (p :: rest) (j + 1)
      = (if p.name ≠ a then [0] else [])
        ++ (eligibleUpTo a rest j).map (fun t => t + 1) := by
  simp only [eligibleUpTo]
  rw [List.range_succ_eq_map]
  rw [List.filter_cons]
  rw [List.filter_map]
  have hpred : ((fun t =>
      match (p :: rest)[t]? with
      | some q => decide (q.name ≠ a)
      | none => false) ∘ Nat.succ)
      = (fun t =>
        match rest[t]? with
        | some q => decide (q.name ≠ a)
        | none => false) := by
    funext t
    simp only [Function.comp]
    rw [show t.succ = t + 1 from rfl, List.getElem?_cons_succ]
  have hsucc : (Nat.succ : Nat → Nat) = (fun t => t + 1) := by
    funext t
    rfl
  rw [hpred, hsucc]
  by_cases hp : p.name = a
  · rw [if_neg (show ¬((match (p :: rest)[0]? with
        | some q => decide (q.name ≠ a)
        | none => false) = true) from by
      rw [List.getElem?_cons_zero]
      simpa using hp)]
    rw [if_neg (show ¬(p.name ≠ a) from by simpa using hp)]
    simp
  · rw [if_pos (show (match (p :: rest)[0]? with
        | some q => decide (q.name ≠ a)
        | none => false) = true from by
      rw [List.getElem?_cons_zero]
      simpa using hp)]
    rw [if_pos (show p.name ≠ a from hp)]
    simp

/-- Composition of the two index shifts used below. -/
theorem map_shift_add (L : List Nat) (i0 : Nat) :
    (L.map (fun t => t + 1)).map (fun t => i0 + t)
      = L.map (fun t => i0 + 1 + t) := by
  rw [List.map_map]
  apply List.map_congr_left
  intro t _
  simp only [Function.comp]
  omega

/-- The fallback loop skips providers named like the primary, attempts each
other provider once in order, and stops at the first success. -/
theorem fallbackLoop_ok (activeName : String) (outcome : Nat → Except GoErr String)
    (v : String) :
    ∀ (l : List MProvider) (i0 j : Nat) (p : MProvider),
      l[j]? = some p → p.name ≠ activeName → outcome (i0 + j) = Except.ok v →
      (∀ t q, t < j → l[t]? = some q → q.name ≠ activeName →
        ∃ e, outcome (i0 + t) = Except.error e) →
      fallbackLoop activeName outcome false l i0
        = (Except.ok v, (eligibleUpTo activeName l j).map (fun t => i0 + t)
            ++ [i0 + j]) := by
  intro l
  induction l with
  | nil =>
      intro i0 j p hj
      rw [List.getElem?_nil] at hj
      cases hj
  | cons q rest ih =>
      intro i0 j p hj hp hok hfail
      cases j with
      | zero =>
          rw [List.getElem?_cons_zero] at hj
          have hqp : q = p := by injection hj
          rw [fallbackLoop]
          rw [if_neg (by rw [hqp]; exact hp)]
          rw [if_neg (by simp)]
          rw [show outcome i0 = Except.ok v from by simpa using hok]
          simp [eligibleUpTo]
      | succ t =>
          rw [List.getElem?_cons_succ] at hj
          by_cases hq : q.name = activeName
          · rw [fallbackLoop]
            rw [if_pos hq]
            rw [ih (i0 + 1) t p hj hp
              (by rw [show i0 + 1 + t = i0 + (t + 1) by omega]; exact hok)
              (by
                intro s q2 hs hsq hq2
                obtain ⟨e, he⟩ := hfail (s + 1) q2 (by omega)
                  (by rw [List.getElem?_cons_succ]; exact hsq) hq2
                exact ⟨e, by rw [show i0 + 1 + s = i0 + (s + 1) by omega]; exact he⟩)]
            rw [eligible_cons]
            rw [if_neg (by simpa using hq)]
            rw [List.nil_append, map_shift_add]
            rw [show i0 + (t + 1) = i0 + 1 + t by omega]
          · obtain ⟨e, he⟩ := hfail 0 q (by omega) List.getElem?_cons_zero hq
            rw [fallbackLoop]
            rw [if_neg hq]
            rw [if_neg (by simp)]
            rw [show outcome i0 = Except.error e from by simpa using he]
            rw [ih (i0 + 1) t p hj hp
              (by rw [show i0 + 1 + t = i0 + (t + 1) by omega]; exact hok)
              (by
                intro s q2 hs hsq hq2
                obtain ⟨e2, he2⟩ := hfail (s + 1) q2 (by omega)
                  (by rw [List.getElem?_cons_succ]; exact hsq) hq2
                exact ⟨e2, by rw [show i0 + 1 + s = i0 + (s + 1) by omega]; exact he2⟩)]
            rw [eligible_cons]
            rw [if_pos (by simpa using hq)]
            rw [List.map_append, map_shift_add]
            rw [show i0 + (t + 1) = i0 + 1 + t by omega]
            simp

/-- What one Router.Complete call does, for any provider behaviour: it
waits on the rate limiter, invokes exactly the provider the balancer
selected (or none), and returns that single invocation's outcome as-is. -/
theorem routerComplete_spec (r : Router) (now : ℚ)
    (behave : String → Except GoErr CompletionResult × Bool) :
    (r.complete now behave).2.2.invoked
        = ((r.balancer.next (2 * r.balancer.providers.length)).1).toList
    ∧ (∀ p, (r.balancer.next (2 * r.balancer.providers.length)).1 = some p →
        (r.complete now behave).1 = (behave p).1
        ∧ (r.complete now behave).2.2.networkCompleted = (behave p).2)
    ∧ (r.complete now behave).2.1.rateLimiter = (r.rateLimiter.wait now 1).1 := by
  rcases hnx : (r.balancer.next (2 * r.balancer.providers.length)).1 with _ | p
  · refine ⟨?_, ?_, ?_⟩
    · simp only [Router.complete]
      rw [hnx]
      try rfl
    · intro p hp
      simp at hp
    · simp only [Router.complete]
      rw [hnx]
      try rfl
  · rcases hb : behave p with ⟨res, comp⟩
    cases res with
    | error e =>
        refine ⟨?_, ?_, ?_⟩
        · simp only [Router.complete]
          rw [hnx]
          simp only []
          rw [hb]
          try rfl
        · intro p2 hp2
          injection hp2 with hp2
          subst hp2
          refine ⟨?_, ?_⟩
          · simp only [Router.complete]
            rw [hnx]
            simp only []
            rw [hb]
            try rfl
          · simp only [Router.complete]
            rw [hnx]
            simp only []
            rw [hb]
            try rfl
        · simp only [Router.complete]
          rw [hnx]
          simp only []
          rw [hb]
          try rfl
    | ok v =>
        refine ⟨?_, ?_, ?_⟩
        · simp only [Router.complete]
          rw [hnx]
          simp only []
          rw [hb]
          try rfl
        · intro p2 hp2
          injection hp2 with hp2
          subst hp2
          refine ⟨?_, ?_⟩
          · simp only [Router.complete]
            rw [hnx]
            simp only []
            rw [hb]
            try rfl
          · simp only [Router.complete]
            rw [hnx]
            simp only []
            rw [hb]
            try rfl
        · simp only [Router.complete]
          rw [hnx]
          simp only []
          rw [hb]
          try rfl

/-- C1, counterexample: with two backends where backend a fails once with a
retryable error (timeout) and backend b would succeed, Router.Complete —
contrary to the claim — performs no retry of a, no backoff sleep and no
fallback to b: it invokes a exactly once and surfaces the retryable error
directly, so the logical call fails even though a retry or the fallback
would have succeeded. -/
theorem claim_C1_counterexample :
    isRetryableError "network error: timeout" = true
    ∧ (exRouter.complete 0 exBehave).2.2.invoked = ["a"]
    ∧ (exRouter.complete 0 exBehave).1 = Except.error "network error: timeout"
    ∧ (exBehave "b").1.isOk = true := by
  refine ⟨by decide, rfl, rfl, rfl⟩

/-- C1, amended: Router.Complete itself performs no retry and no fallback —
it invokes exactly the balancer-selected backend once and returns its
outcome unchanged. The behaviour the claim describes lives elsewhere:
Manager.callProviderWithRetry sleeps 2^(attempt-1) seconds before retry
attempt and retries the same provider while attempts remain, stopping
immediately on a non-retryable error; and
BatchDecisionSystem.callLLMWithFallback, after the primary fails, iterates
the remaining providers in list order, skipping the primary's name,
attempting each once and stopping at the first success. -/
theorem claim_C1 :
    (∀ (r : Router) (now : ℚ) (behave : String → Except GoErr CompletionResult × Bool),
      (r.complete now behave).2.2.invoked
          = ((r.balancer.next (2 * r.balancer.providers.length)).1).toList
      ∧ ∀ p, (r.balancer.next (2 * r.balancer.providers.length)).1 = some p →
          (r.complete now behave).1 = (behave p).1)
    ∧ (∀ (call : Nat → Except GoErr String) (maxRetries k : Nat) (v : String),
        k ≤ maxRetries →
        (∀ t, t < k → ∃ e, call t = Except.error e ∧ isRetryableError e = true) →
        call k = Except.ok v →
        callProviderWithRetry call maxRetries
          = (Except.ok v, (List.range k).map (fun t => 2 ^ t)))
    ∧ (∀ (call : Nat → Except GoErr String) (maxRetries : Nat) (e : GoErr),
        call 0 = Except.error e → isRetryableError e = false →
        callProviderWithRetry call maxRetries = (Except.error e, []))
    ∧ (∀ (activeName : String) (e0 : GoErr) (ps : List MProvider)
        (outcome : Nat → Except GoErr String) (j : Nat) (p : MProvider) (v : String),
        ps[j]? = some p → p.name ≠ activeName → outcome j = Except.ok v →
        (∀ t q, t < j → ps[t]? = some q → q.name ≠ activeName →
          ∃ e, outcome t = Except.error e) →
        callLLMWithFallback activeName (Except.error e0) ps outcome false
          = (Except.ok v, eligibleUpTo activeName ps j ++ [j])) := by
  refine ⟨?_, ?_, ?_, ?_⟩
  · intro r now behave
    obtain ⟨h1, h2, _⟩ := routerComplete_spec r now behave
    exact ⟨h1, fun p hp => (h2 p hp).1⟩
  · intro call maxRetries k v hk hfail hok
    have h := retryLoop_ok call v k (maxRetries + 1) 0 "" (by omega)
      (by simpa using hfail) (by simpa using hok)
    rw [callProviderWithRetry, h, backoffs_zero]
  · intro call maxRetries e hcall hre
    rw [callProviderWithRetry, retryLoop]
    rw [hcall]
    simp only []
    rw [if_neg (by rw [hre]; simp)]
    rw [if_neg (by omega : ¬ 0 > 0)]
  · intro activeName e0 ps outcome j p v hj hp hok hfail
    show fallbackLoop activeName outcome false ps 0 = _
    rw [fallbackLoop_ok activeName outcome v ps 0 j p hj hp (by simpa using hok)
      (by
        intro t q ht hq hqn
        obtain ⟨e, he⟩ := hfail t q ht hq hqn
        exact ⟨e, by simpa using he⟩)]
    have hid : (eligibleUpTo activeName ps j).map (fun t => 0 + t)
        = eligibleUpTo activeName ps j := by
      have : (fun t => 0 + t) = (id : Nat → Nat) := by
        funext t
        simp
      rw [this, List.map_id]
    rw [hid]
    rw [Nat.zero_add]

/-- C1, witness: the amended statement at concrete inputs — a call that
fails retryably twice then succeeds is retried with sleeps of 1 and 2
seconds; a non-retryable error is not retried; the fallback skips the
provider named like the primary, tries index 1 (which fails) and stops at
index 2; and Router.Complete returns the selected backend's outcome. -/
theorem claim_C1_witness :
    callProviderWithRetry
        (fun i => if i < 2 then Except.error "timeout" else Except.ok "yes") 2
      = (Except.ok "yes", [1, 2])
    ∧ callProviderWithRetry (fun _ => Except.error "bad api key") 2
      = (Except.error "bad api key", [])
    ∧ callLLMWithFallback "a" (Except.error "boom") [⟨"a"⟩, ⟨"b"⟩, ⟨"c"⟩]
        (fun i => if i = 2 then Except.ok "ok-c" else Except.error "x") false
      = (Except.ok "ok-c", [1, 2])
    ∧ (exRouter.complete 0 exBehave).1 = (exBehave "a").1 := by
  refine ⟨?_, ?_, ?_, ?_⟩
  · have h := claim_C1.2.1
      (fun i => if i < 2 then Except.error "timeout" else Except.ok "yes") 2 2 "yes"
      (by omega)
      (fun t ht => ⟨"timeout", by simp only []; rw [if_pos ht], by decide⟩)
      (by simp only []; rw [if_neg (by omega)])
    rw [h]
    rfl
  · exact claim_C1.2.2.1 (fun _ => Except.error "bad api key") 2 "bad api key" rfl
      (by decide)
  · have h := claim_C1.2.2.2 "a" "boom" [⟨"a"⟩, ⟨"b"⟩, ⟨"c"⟩]
      (fun i => if i = 2 then Except.ok "ok-c" else Except.error "x") 2 ⟨"c"⟩ "ok-c"
      rfl (by decide) (by simp)
      (fun t q ht hq hqn => ⟨"x", by simp only []; rw [if_neg (by omega)]⟩)
    rw [h]
    rfl
  · exact ((claim_C1.1 exRouter 0 exBehave).2) "a" (by decide)

/-- C2, counterexample: with an already-cancelled context, Router.Complete
does not skip the admission wait and does not avoid the backend: the rate
limiter is debited from 5 to 4 tokens, and the selected backend's Complete
is invoked (the claimed stub test would observe the invocation). The call
does return a cancellation-wrapped error without a completed network
call. -/
theorem claim_C2_counterexample :
    (exRouter2.complete 0 exBehave2).2.2.invoked = ["a"]
    ∧ (exRouter2.complete 0 exBehave2).1 = Except.error "network error: context canceled"
    ∧ (exRouter2.complete 0 exBehave2).2.2.networkCompleted = false
    ∧ (exRouter2.complete 0 exBehave2).2.1.rateLimiter.tokens = 4 := by
  refine ⟨rfl, rfl, rfl, ?_⟩
  show ((exRouter2.rateLimiter.wait 0 1).1).tokens = 4
  simp only [exRouter2, NewRateLimiter, RateLimiter.wait]
  norm_num

/-- C2, amended: Router.Complete does not check the context before the
admission wait: it performs RateLimiter.Wait(1) unconditionally and then
invokes the selected backend's Complete even under an already-cancelled
context; the call returns the cancellation-wrapped network error produced
inside the backend's HTTP layer, and no network call completes. -/
theorem claim_C2 (r : Router) (now : ℚ) (model : String) (net : String → NetOutcome)
    (p : String)
    (hsel : (r.balancer.next (2 * r.balancer.providers.length)).1 = some p) :
    (r.complete now (fun q => adapterComplete q model true (net q))).1
        = Except.error "network error: context canceled"
    ∧ (r.complete now (fun q => adapterComplete q model true (net q))).2.2.invoked = [p]
    ∧ (r.complete now (fun q => adapterComplete q model true (net q))).2.2.networkCompleted
        = false
    ∧ (r.complete now (fun q => adapterComplete q model true (net q))).2.1.rateLimiter
        = (r.rateLimiter.wait now 1).1 := by
  obtain ⟨h1, h2, h3⟩ :=
    routerComplete_spec r now (fun q => adapterComplete q model true (net q))
  obtain ⟨h4, h5⟩ := h2 p hsel
  refine ⟨?_, ?_, ?_, h3⟩
  · rw [h4]
    rfl
  · rw [h1, hsel]
    rfl
  · rw [h5]
    rfl

/-- C2, witness: the amended statement at the single-provider fixture with
a cancelled context. -/
theorem claim_C2_witness :
    (exRouter2.complete 0
        (fun q => adapterComplete q "m" true
          (NetOutcome.response 200 ["hi"] 1 2 ""))).1
      = Except.error "network error: context canceled"
    ∧ (exRouter2.complete 0
        (fun q => adapterComplete q "m" true
          (NetOutcome.response 200 ["hi"] 1 2 ""))).2.2.invoked = ["a"] := by
  have h := claim_C2 exRouter2 0 "m"
    (fun _ => NetOutcome.response 200 ["hi"] 1 2 "") "a" (by decide)
  exact ⟨h.1, h.2.1⟩

/-- Under unique keys, two entries with the same key are the same entry. -/
theorem key_unique {β : Type} :
    ∀ (l : List (String × β)), (l.map Prod.fst).Nodup →
      ∀ e1 ∈ l, ∀ e2 ∈ l, e1.1 = e2.1 → e1 = e2 := by
  intro l
  induction l with
  | nil => intro _ e1 h1; cases h1
  | cons a t ih =>
      intro hnodup e1 h1 e2 h2 hk
      rw [List.map_cons, List.nodup_cons] at hnodup
      rcases List.mem_cons.mp h1 with h1 | h1 <;> rcases List.mem_cons.mp h2 with h2 | h2
      · rw [h1, h2]
      · exact absurd (List.mem_map.mpr ⟨e2, h2, by rw [← hk, h1]⟩) hnodup.1
      · exact absurd (List.mem_map.mpr ⟨e1, h1, by rw [hk, h2]⟩) hnodup.1
      · exact ih hnodup.2 e1 h1 e2 h2 hk

/-- Get changes no key, decision or creation time — only a hit counter. -/
theorem get_core (c : DecisionCache) (now : Int) (k : String)
    (hnodup : (c.entries.map Prod.fst).Nodup) :
    ((c.get now k).2).entries.map entryCore = c.entries.map entryCore
    ∧ ((c.get now k).2).ttl = c.ttl
    ∧ ((c.get now k).2).maxSize = c.maxSize := by
  rcases hf : c.entries.find? (fun e => e.1 == k) with _ | kv
  · simp only [DecisionCache.get, hf]
    exact ⟨by trivial, by trivial, by trivial⟩
  · have hkvmem : kv ∈ c.entries := List.mem_of_find?_eq_some hf
    have hkvk : kv.1 = k := by
      have := List.find?_some hf
      simpa using this
    simp only [DecisionCache.get, hf]
    by_cases hexp : now - kv.2.createdAt > c.ttl
    · rw [if_pos hexp]
      exact ⟨by trivial, by trivial, by trivial⟩
    · rw [if_neg hexp]
      refine ⟨?_, rfl, rfl⟩
      simp only [List.map_map]
      apply List.map_congr_left
      intro e he
      by_cases hek : e.1 = k
      · have : e = kv := key_unique c.entries hnodup e he kv hkvmem (by rw [hek, hkvk])
        subst this
        simp [Function.comp, entryCore, hek]
      · simp [Function.comp, entryCore, hek]

/-- find? by key respects the Get-invariant part of the entries. -/
theorem find_core (k : String) :
    ∀ (l1 l2 : List (String × CachedDecision)),
      l1.map entryCore = l2.map entryCore →
      (l1.find? (fun e => e.1 == k)).map entryCore
        = (l2.find? (fun e => e.1 == k)).map entryCore := by
  intro l1
  induction l1 with
  | nil =>
      intro l2 h
      cases l2 with
      | nil => rfl
      | cons b t2 => simp at h
  | cons a t1 ih =>
      intro l2 h
      cases l2 with
      | nil => simp at h
      | cons b t2 =>
          simp only [List.map_cons, List.cons.injEq] at h
          have hfst : a.1 = b.1 := by
            have := congrArg Prod.fst h.1
            simpa [entryCore] using this
          simp only [List.find?]
          by_cases hak : a.1 = k
          · rw [show (a.1 == k) = true by simpa using hak,
              show (b.1 == k) = true by simp [← hfst, hak]]
            simp only [Option.map_some']
            rw [h.1]
          · rw [show (a.1 == k) = false by simpa using hak,
              show (b.1 == k) = false by simp [← hfst]; exact hak]
            exact ih t2 h.2

/-- Caches that agree on everything Get reads produce the same hit/miss
outcome and the same returned decision and creation time. -/
theorem get_same_shape (c1 c2 : DecisionCache) (now : Int) (k : String)
    (hent : c1.entries.map entryCore = c2.entries.map entryCore)
    (httl : c1.ttl = c2.ttl) :
    ((c1.get now k).1).isSome = ((c2.get now k).1).isSome
    ∧ ((c1.get now k).1).map (fun e => (e.decision, e.createdAt))
        = ((c2.get now k).1).map (fun e => (e.decision, e.createdAt)) := by
  have hfind := find_core k c1.entries c2.entries hent
  rcases hf1 : c1.entries.find? (fun e => e.1 == k) with _ | kv1
  · rw [hf1] at hfind
    rcases hf2 : c2.entries.find? (fun e => e.1 == k) with _ | kv2
    · simp only [DecisionCache.get, hf1, hf2]
      exact ⟨by trivial, by trivial⟩
    · rw [hf2] at hfind
      simp at hfind
  · rw [hf1] at hfind
    rcases hf2 : c2.entries.find? (fun e => e.1 == k) with _ | kv2
    · rw [hf2] at hfind
      simp at hfind
    · rw [hf2] at hfind
      simp only [Option.map_some', Option.some.injEq, entryCore] at hfind
      have hcd : kv1.2.createdAt = kv2.2.createdAt := by
        have := congrArg (fun x => x.2.2) hfind
        simpa using this
      have hdec : kv1.2.decision = kv2.2.decision := by
        have := congrArg (fun x => x.2.1) hfind
        simpa using this
      simp only [DecisionCache.get, hf1, hf2]
      rw [← hcd, ← httl]
      by_cases hexp : now - kv1.2.createdAt > c1.ttl
      · rw [if_pos hexp, if_pos hexp]
        exact ⟨by trivial, by trivial⟩
      · rw [if_neg hexp, if_neg hexp]
        refine ⟨rfl, ?_⟩
        simp only [Option.map_some']
        rw [hdec, hcd]

/-- The keys of a cache follow from its Get-invariant part. -/
theorem keys_of_core (l1 l2 : List (String × CachedDecision))
    (h : l1.map entryCore = l2.map entryCore) :
    l1.map Prod.fst = l2.map Prod.fst := by
  have h1 : (l1.map entryCore).map Prod.fst = (l2.map entryCore).map Prod.fst := by
    rw [h]
  simpa [List.map_map, Function.comp, entryCore] using h1

/-- When every observation's fingerprint hits the cache, phase 1 leaves no
uncached observation, marks everything as from cache, and fills one
decision per observation. -/
theorem phase1_allhit (hash : Obs → String) (now : Int) :
    ∀ (obs : List Obs) (i : Nat) (c : DecisionCache),
      (c.entries.map Prod.fst).Nodup →
      (∀ o ∈ obs, ((c.get now (hash o)).1).isSome = true) →
      (phase1 hash now obs i c).uncached = []
      ∧ (phase1 hash now obs i c).fromCache = List.replicate obs.length true
      ∧ (phase1 hash now obs i c).decisions.length = obs.length
      ∧ (∀ d ∈ (phase1 hash now obs i c).decisions, d.isSome = true) := by
  intro obs
  induction obs with
  | nil =>
      intro i c _ _
      exact ⟨rfl, rfl, rfl, fun d hd => absurd hd (List.not_mem_nil d)⟩
  | cons o rest ih =>
      intro i c hnodup hhit
      obtain ⟨g1, g2, g3⟩ := get_core c now (hash o) hnodup
      have hkeys := keys_of_core _ _ g1
      have hisome := hhit o (List.mem_cons_self o rest)
      rcases hg : (c.get now (hash o)).1 with _ | e
      · rw [hg] at hisome
        simp at hisome
      · have hresthit : ∀ o2 ∈ rest, (((c.get now (hash o)).2.get now (hash o2)).1).isSome
            = true := by
          intro o2 ho2
          have := (get_same_shape ((c.get now (hash o)).2) c now (hash o2) g1 g2).1
          rw [this]
          exact hhit o2 (List.mem_cons_of_mem o ho2)
        have hrestnodup : (((c.get now (hash o)).2).entries.map Prod.fst).Nodup := by
          rw [hkeys]
          exact hnodup
        obtain ⟨p1, p2, p3, p4⟩ := ih (i + 1) ((c.get now (hash o)).2) hrestnodup hresthit
        simp only [phase1, hg]
        refine ⟨p1, ?_, ?_, ?_⟩
        · rw [List.length_cons, List.replicate_succ]
          rw [p2]
        · rw [List.length_cons, p3]
          simp
        · intro d hd
          rcases List.mem_cons.mp hd with h | h
          · rw [h]
            rfl
          · exact p4 d h

/-- Structural facts about phase 1: one decision slot per observation,
uncached indices within range and strictly increasing. -/
theorem phase1_spec (hash : Obs → String) (now : Int) :
    ∀ (obs : List Obs) (i : Nat) (c : DecisionCache),
      (phase1 hash now obs i c).decisions.length = obs.length
      ∧ (∀ io ∈ (phase1 hash now obs i c).uncached,
          i ≤ io.1 ∧ io.1 < i + obs.length)
      ∧ (phase1 hash now obs i c).uncached.Pairwise (fun a b => a.1 < b.1) := by
  intro obs
  induction obs with
  | nil =>
      intro i c
      exact ⟨rfl, fun io hio => absurd hio (List.not_mem_nil io), List.Pairwise.nil⟩
  | cons o rest ih =>
      intro i c
      rcases hg : (c.get now (hash o)).1 with _ | e
      · obtain ⟨p1, p2, p3⟩ := ih (i + 1) ((c.get now (hash o)).2)
        simp only [phase1, hg]
        refine ⟨?_, ?_, ?_⟩
        · rw [List.length_cons, p1]
          simp
        · intro io hio
          rcases List.mem_cons.mp hio with h | h
          · rw [h]
            simp only [List.length_cons]
            omega
          · have := p2 io h
            simp only [List.length_cons]
            omega
        · rw [List.pairwise_cons]
          refine ⟨?_, p3⟩
          intro io hio
          have := p2 io hio
          simp only []
          omega
      · obtain ⟨p1, p2, p3⟩ := ih (i + 1) ((c.get now (hash o)).2)
        simp only [phase1, hg]
        refine ⟨?_, ?_, p3⟩
        · rw [List.length_cons, p1]
          simp
        · intro io hio
          have := p2 io hio
          simp only [List.length_cons]
          omega

/-- If some observation misses the cache, phase 1 reports at least one
uncached observation. -/
theorem phase1_miss (hash : Obs → String) (now : Int) :
    ∀ (obs : List Obs) (i : Nat) (c : DecisionCache),
      (c.entries.map Prod.fst).Nodup →
      (∃ o ∈ obs, ((c.get now (hash o)).1) = none) →
      (phase1 hash now obs i c).uncached ≠ [] := by
  intro obs
  induction obs with
  | nil =>
      intro i c _ hmiss
      obtain ⟨o, ho, _⟩ := hmiss
      exact absurd ho (List.not_mem_nil o)
  | cons o rest ih =>
      intro i c hnodup hmiss
      obtain ⟨g1, g2, g3⟩ := get_core c now (hash o) hnodup
      have hkeys := keys_of_core _ _ g1
      rcases hg : (c.get now (hash o)).1 with _ | e
      · simp only [phase1, hg]
        simp
      · simp only [phase1, hg]
        apply ih (i + 1) ((c.get now (hash o)).2) (by rw [hkeys]; exact hnodup)
        obtain ⟨o2, ho2, hmiss2⟩ := hmiss
        have ho2r : o2 ∈ rest := by
          rcases List.mem_cons.mp ho2 with h | h
          · exfalso
            rw [h] at hmiss2
            rw [hg] at hmiss2
            cases hmiss2
          · exact h
        refine ⟨o2, ho2r, ?_⟩
        have := (get_same_shape ((c.get now (hash o)).2) c now (hash o2) g1 g2).1
        rw [hmiss2] at this
        simp only [Option.isSome_none] at this
        exact Option.not_isSome_iff_eq_none.mp (by rw [this]; simp)

/-- Writing default decisions at pairwise-distinct in-range indices sets
exactly those slots and leaves the rest unchanged. -/
theorem foldl_set_defaults :
    ∀ (u : List (Nat × Obs)) (ds : List (Option Decision)),
      (∀ io ∈ u, io.1 < ds.length) →
      u.Pairwise (fun a b => a.1 < b.1) →
      (u.foldl (fun ds io => ds.set io.1 (some (DefaultDecision io.2))) ds).length
          = ds.length
      ∧ (∀ io ∈ u,
          (u.foldl (fun ds io => ds.set io.1 (some (DefaultDecision io.2))) ds)[io.1]?
            = some (some (DefaultDecision io.2)))
      ∧ (∀ i2 : Nat, (∀ io ∈ u, io.1 ≠ i2) →
          (u.foldl (fun ds io => ds.set io.1 (some (DefaultDecision io.2))) ds)[i2]?
            = ds[i2]?) := by
  intro u
  induction u with
  | nil =>
      intro ds _ _
      exact ⟨rfl, fun io hio => absurd hio (List.not_mem_nil io), fun i2 _ => rfl⟩
  | cons io0 rest ih =>
      intro ds hbound hpair
      rw [List.pairwise_cons] at hpair
      have hbound1 : ∀ io ∈ rest, io.1 < (ds.set io0.1 (some (DefaultDecision io0.2))).length := by
        intro io hio
        rw [List.length_set]
        exact hbound io (List.mem_cons_of_mem io0 hio)
      obtain ⟨q1, q2, q3⟩ := ih (ds.set io0.1 (some (DefaultDecision io0.2))) hbound1 hpair.2
      simp only [List.foldl_cons]
      refine ⟨?_, ?_, ?_⟩
      · rw [q1, List.length_set]
      · intro io hio
        rcases List.mem_cons.mp hio with h | h
        · subst h
          rw [q3 io.1 (fun io2 hio2 => by have := hpair.1 io2 hio2; omega)]
          rw [List.getElem?_set_self (hbound io (List.mem_cons_self io rest))]
        · exact q2 io h
      · intro i2 hne
        rw [q3 i2 (fun io2 hio2 => hne io2 (List.mem_cons_of_mem io0 hio2))]
        rw [List.getElem?_set_ne (hne io0 (List.mem_cons_self io0 rest))]

/-- C7: when the observation list is nonempty, at least one observation
misses the cache, and the combined LLM call fails entirely, the batch call
surfaces no error, makes the one (failed) LLM call, keeps one decision slot
per observation, fills every uncached slot with exactly the default
decision for its observation, and leaves every cached slot as phase 1
filled it. -/
theorem claim_C7 (hash : Obs → String) (parse : String → List Obs → List Decision)
    (e0 : GoErr) (now : Int) (cache : DecisionCache) (obs : List Obs)
    (hobs : obs ≠ [])
    (hnodup : (cache.entries.map Prod.fst).Nodup)
    (hmiss : ∃ o ∈ obs, ((cache.get now (hash o)).1) = none) :
    (GetBatchDecisions hash parse false (Except.error e0) now cache obs).1.error = none
    ∧ (GetBatchDecisions hash parse false (Except.error e0) now cache obs).2.2 = true
    ∧ (GetBatchDecisions hash parse false (Except.error e0) now cache
        obs).1.decisions.length = obs.length
    ∧ (∀ io ∈ (phase1 hash now obs 0 cache).uncached,
        (GetBatchDecisions hash parse false (Except.error e0) now cache
          obs).1.decisions[io.1]? = some (some (DefaultDecision io.2)))
    ∧ (∀ i : Nat, (∀ io ∈ (phase1 hash now obs 0 cache).uncached, io.1 ≠ i) →
        (GetBatchDecisions hash parse false (Except.error e0) now cache
          obs).1.decisions[i]? = (phase1 hash now obs 0 cache).decisions[i]?) := by
  have hlen0 : ¬ (obs.length = 0) := by
    intro h
    exact hobs (List.length_eq_zero.mp h)
  have hunc : ¬ ((phase1 hash now obs 0 cache).uncached.length = 0) := by
    intro h
    exact phase1_miss hash now obs 0 cache hnodup hmiss (List.length_eq_zero.mp h)
  have hout : GetBatchDecisions hash parse false (Except.error e0) now cache obs
      = (⟨(phase1 hash now obs 0 cache).uncached.foldl
            (fun ds io => ds.set io.1 (some (DefaultDecision io.2)))
            (phase1 hash now obs 0 cache).decisions,
          (phase1 hash now obs 0 cache).fromCache, none⟩,
        (phase1 hash now obs 0 cache).cache, true) := by
    simp only [GetBatchDecisions]
    rw [if_neg hlen0]
    simp only [Bool.false_eq_true, if_false]
    rw [if_neg hunc]
  obtain ⟨s1, s2, s3⟩ := phase1_spec hash now obs 0 cache
  have hbound : ∀ io ∈ (phase1 hash now obs 0 cache).uncached,
      io.1 < (phase1 hash now obs 0 cache).decisions.length := by
    intro io hio
    have := s2 io hio
    omega
  obtain ⟨f1, f2, f3⟩ := foldl_set_defaults (phase1 hash now obs 0 cache).uncached
    (phase1 hash now obs 0 cache).decisions hbound s3
  rw [hout]
  exact ⟨rfl, rfl, by rw [f1, s1], f2, f3⟩

/-- C7, witness: one cached and one uncached observation; the combined call
fails; the uncached slot gets the default decision, no error surfaces. -/
theorem claim_C7_witness :
    (GetBatchDecisions exHash (fun _ _ => []) false (Except.error "all providers failed")
      1 exCacheHalf exObs).1.error = none
    ∧ (GetBatchDecisions exHash (fun _ _ => []) false
        (Except.error "all providers failed") 1 exCacheHalf exObs).1.decisions.length = 2
    ∧ (GetBatchDecisions exHash (fun _ _ => []) false
        (Except.error "all providers failed") 1 exCacheHalf
        exObs).1.decisions[0]?
      = some (some [("npc_id", "id1"), ("action", "explore"),
          ("reason", "Looking around...")]) := by
  have h := claim_C7 exHash (fun _ _ => []) "all providers failed" 1 exCacheHalf exObs
    (by decide) (by decide)
    ⟨{ npcId := "id1", name := "n1" }, by decide, by decide⟩
  refine ⟨h.1, h.2.2.1, ?_⟩
  have h4 := h.2.2.2.1 (0, { npcId := "id1", name := "n1" }) (by decide)
  exact h4

/-- C8: when every observation's fingerprint hits the cache (and the call
is otherwise well-formed: nonempty list, live context), the batch call
makes no LLM call, surfaces no error, marks every decision as from cache,
and returns one (present) decision per observation. -/
theorem claim_C8 (hash : Obs → String) (parse : String → List Obs → List Decision)
    (llm : Except GoErr String) (now : Int) (cache : DecisionCache) (obs : List Obs)
    (hobs : obs ≠ [])
    (hnodup : (cache.entries.map Prod.fst).Nodup)
    (hhit : ∀ o ∈ obs, ((cache.get now (hash o)).1).isSome = true) :
    (GetBatchDecisions hash parse false llm now cache obs).2.2 = false
    ∧ (GetBatchDecisions hash parse false llm now cache obs).1.error = none
    ∧ (GetBatchDecisions hash parse false llm now cache obs).1.fromCache
        = List.replicate obs.length true
    ∧ (GetBatchDecisions hash parse false llm now cache obs).1.decisions.length
        = obs.length
    ∧ (∀ d ∈ (GetBatchDecisions hash parse false llm now cache obs).1.decisions,
        d.isSome = true) := by
  have hlen0 : ¬ (obs.length = 0) := by
    intro h
    exact hobs (List.length_eq_zero.mp h)
  obtain ⟨a1, a2, a3, a4⟩ := phase1_allhit hash now obs 0 cache hnodup hhit
  have hout : GetBatchDecisions hash parse false llm now cache obs
      = (⟨(phase1 hash now obs 0 cache).decisions,
          (phase1 hash now obs 0 cache).fromCache, none⟩,
        (phase1 hash now obs 0 cache).cache, false) := by
    simp only [GetBatchDecisions]
    rw [if_neg hlen0]
    simp only [Bool.false_eq_true, if_false]
    rw [if_pos (by rw [a1]; rfl)]
  rw [hout]
  exact ⟨rfl, rfl, a2, a3, a4⟩

/-- C8, witness: both observations cached; zero LLM calls, all fromCache
flags true. -/
theorem claim_C8_witness :
    (GetBatchDecisions exHash (fun _ _ => []) false (Except.error "x") 1 exCacheAll
      exObs).2.2 = false
    ∧ (GetBatchDecisions exHash (fun _ _ => []) false (Except.error "x") 1 exCacheAll
        exObs).1.fromCache = [true, true] := by
  have h := claim_C8 exHash (fun _ _ => []) (Except.error "x") 1 exCacheAll exObs
    (by decide) (by decide) (by decide)
  exact ⟨h.1, h.2.2.1⟩

/-- C4, witness: capacity 5, refill 1/s; Wait(5) at t=0 sleeps 0, an
immediate Wait(1) sleeps exactly 1 second. -/
theorem claim_C4_witness :
    ((NewRateLimiter 5 1 0).wait 0 5).2 = 0
    ∧ ((((NewRateLimiter 5 1 0).wait 0 5).1).wait (0 + 0) 1).2 = 1 - 0 :=
  claim_C4.2 0 0 (by decide) (by decide)

/-- C5, witness: a full two-entry cache; setting fresh key k3 keeps the
size at 2, evicts the oldest entry k1, and the new entry is retrievable. -/
theorem claim_C5_witness :
    (exCacheFull.set 7 "k3" [("c", "3")]).entries.length = 2
    ∧ (∃ e2, ((exCacheFull.set 7 "k3" [("c", "3")]).get 7 "k3").1 = some e2
        ∧ e2.decision = [("c", "3")])
    ∧ ∃ kv ∈ exCacheFull.entries,
        (∀ kv2 ∈ exCacheFull.entries, kv.2.createdAt ≤ kv2.2.createdAt)
        ∧ kv ∉ (exCacheFull.set 7 "k3" [("c", "3")]).entries := by
  obtain ⟨kv, hkv, hmin, hent, hgone, hlen, hget⟩ :=
    claim_C5 exCacheFull 7 "k3" [("c", "3")] (by decide) (by decide) (by decide)
      (by decide) (by decide) (by decide)
  exact ⟨hlen, hget, kv, hkv, hmin, hgone⟩

/-- C6, witness: an entry created at 0 with ttl 10 is found at time 5 and
reported absent (with the cache unchanged) at time 11. -/
theorem claim_C6_witness :
    (∃ e2, (exCacheAll.get 5 "n1").1 = some e2 ∧ e2.decision = [("d", "1")])
    ∧ (exCacheAll.get 11 "n1").1 = none
    ∧ (exCacheAll.get 11 "n1").2 = exCacheAll := by
  have h5 := claim_C6 exCacheAll "n1"
    ("n1", { decision := [("d", "1")], createdAt := 0, hitCount := 0 }) 5 (by decide)
  have h11 := claim_C6 exCacheAll "n1"
    ("n1", { decision := [("d", "1")], createdAt := 0, hitCount := 0 }) 11 (by decide)
  obtain ⟨e2, he2, hdec, _⟩ := h5.1 (by decide)
  obtain ⟨habs, hunch⟩ := h11.2.1 (by decide)
  exact ⟨⟨e2, he2, by rw [hdec]⟩, habs, hunch⟩

/-- C10, witness: the two-provider balancer with both weights 1 satisfies
the invariant at construction and its scan loop succeeds with fuel 2·n
from the initial state. -/
theorem claim_C10_witness :
    balancerInv (NewBalancer [(0 : Nat), 1] (fun _ => 1))
      (NewBalancer [(0 : Nat), 1] (fun _ => 1)).lastIndex
      (NewBalancer [(0 : Nat), 1] (fun _ => 1)).currentWeight
    ∧ (nextLoop (NewBalancer [(0 : Nat), 1] (fun _ => 1))
        (2 * (NewBalancer [(0 : Nat), 1] (fun _ => 1)).providers.length)
        (-1) 0).isSome = true := by
  have h := claim_C10 [(0 : Nat), 1] (fun _ => 1) (by decide)
  refine ⟨h.1, ?_⟩
  apply h.2.2.1 (-1) 0
  exact ⟨by decide, by decide, by decide⟩

end Npc
